import Mathlib

/-!
Verification of the statement segmentation and execution orchestration core
of the cassandra-lens editor extension.

TypeScript strings are embedded as `List Char` (a faithful rendering of the
JS view of a string as a sequence of code units for the ASCII texts the
segmenter works on).  The translated functions mirror, operation by
operation, the source of:

* QueryCommands.parseStatements / findConnectionDirectiveInDocument /
  getSuggestionForError / executeQuery / executeStatementAtLine
  (src/commands/queryCommands.ts)
* CqlCodeLensProvider.parseStatements / isValidStatement /
  parseStatementsWithLines / findCqlStartLine /
  findConnectionDirectiveForStatement (src/providers/cqlCodeLensProvider.ts)
* ExecutionTimeTracker (src/services/executionTimeTracker.ts)
-/

set_option maxRecDepth 8000

/-- Conversion of a Lean string literal to the character-list representation
used throughout this development. -/
def strL (s : String) : List Char := s.toList

/-- Whitespace test matching the characters the JS `trim` and the truthiness
test `char.trim()` treat as whitespace in the ASCII range. -/
def isWSb (c : Char) : Bool :=
  decide (c = ' ' ∨ c = '\t' ∨ c = '\n' ∨ c = '\r' ∨ c = '\x0B' ∨ c = '\x0C')

/-- Left trim: drop leading whitespace. -/
def trimL (l : List Char) : List Char := l.dropWhile isWSb

/-- Right trim: drop trailing whitespace. -/
def trimR (l : List Char) : List Char := (l.reverse.dropWhile isWSb).reverse

/-- JS String.prototype.trim. -/
def trimC (l : List Char) : List Char := trimR (trimL l)

/-- Number of newline characters in a text. -/
def nlCount (l : List Char) : Nat := l.count '\n'

/-- JS String.prototype.split with separator a single newline. -/
def splitOnNl (l : List Char) : List (List Char) :=
  match l with
  | [] => [[]]
  | c :: cs =>
    let r := splitOnNl cs
    if c = '\n' then [] :: r
    else
      match r with
      | [] => [[c]]
      | h :: t => (c :: h) :: t

/-- Inverse of `splitOnNl`: join lines with a newline separator. -/
def joinNl : List (List Char) → List Char
  | [] => []
  | [l] => l
  | l :: ls => l ++ '\n' :: joinNl ls

/-- JS String.prototype.startsWith: does `l` start with `pre`. -/
def startsWithL : List Char → List Char → Bool
  | _, [] => true
  | [], _ :: _ => false
  | c :: cs, p :: ps => decide (c = p) && startsWithL cs ps

/-- Helper for `indexOfSub`: first index k' ≥ k at which `needle` occurs. -/
def indexOfAux (needle : List Char) : List Char → Nat → Option Nat
  | [], k => if startsWithL [] needle then some k else none
  | c :: cs, k =>
    if startsWithL (c :: cs) needle then some k else indexOfAux needle cs (k + 1)

/-- JS String.prototype.indexOf (returning `none` for -1). -/
def indexOfSub (hay needle : List Char) : Option Nat := indexOfAux needle hay 0

/-- JS String.prototype.includes. -/
def containsSub (hay needle : List Char) : Bool := (indexOfSub hay needle).isSome

/-- JS String.prototype.toLowerCase on ASCII text. -/
def toLowerL (l : List Char) : List Char := l.map Char.toLower

/-- Effect of the regex replace of a line comment on one line: text from the
first occurrence of two consecutive dashes to the end of the line is removed. -/
def cutLineComment : List Char → List Char
  | [] => []
  | c :: cs => if c = '-' ∧ cs.head? = some '-' then [] else c :: cutLineComment cs

/-- Effect of the global multi-line regex replace of line comments: each line
is cut at its first occurrence of two consecutive dashes. -/
def stripLineComments (l : List Char) : List Char :=
  joinNl ((splitOnNl l).map cutLineComment)

/-- Scan for the nearest block comment closer: on success returns the text
after the first occurrence of an asterisk-slash pair. -/
def dropToClose : List Char → Option (List Char)
  | [] => none
  | [_] => none
  | a :: b :: rest => if a = '*' ∧ b = '/' then some rest else dropToClose (b :: rest)

/-- Fuelled scan behind `stripBlockComments`; the fuel only serves to make
the recursion structural, a fuel of one more than the text length is always
enough (each step consumes at least one character of the text). -/
def sbcGo : Nat → List Char → List Char
  | 0, l => l
  | _ + 1, [] => []
  | _ + 1, [c] => [c]
  | fuel + 1, a :: b :: rest =>
    if a = '/' ∧ b = '*' then
      match dropToClose rest with
      | some rest' => sbcGo fuel rest'
      | none => a :: b :: sbcGo fuel rest
    else a :: sbcGo fuel (b :: rest)

/-- Effect of the global non-greedy regex replace of block comments: each
leftmost slash-asterisk opener together with the text up to the nearest
asterisk-slash closer is removed; an opener with no later closer is kept. -/
def stripBlockComments (l : List Char) : List Char := sbcGo (l.length + 1) l

/-- Combined comment stripping and trimming used by the statement filters:
line comments removed, then block comments, then the result trimmed. -/
def stripAll (l : List Char) : List Char :=
  trimC (stripBlockComments (stripLineComments l))

/-! ## The character scanner shared by both statement splitters

Both QueryCommands.parseStatements and CqlCodeLensProvider.parseStatements
run the identical character loop: quote tracking with the previous character
consulted for a backslash escape, and a split on every semicolon standing
outside a string.  The loop is embedded once. -/

/-- Scanner state: whether the scan is inside a quoted string, and which
quote character opened it (`none` renders the JS empty-string sentinel). -/
structure ScanSt where
  inString : Bool
  stringChar : Option Char
deriving DecidableEq

/-- Quote tracking of one character, mirroring the string-boundary block of
the TypeScript loop.  `prev` is the previous character of the input
(`none` at position 0, where JS reads an empty string). -/
def quoteStep (prev : Option Char) (c : Char) (st : ScanSt) : ScanSt :=
  if (c = '\'' ∨ c = '"') ∧ prev ≠ some '\\' then
    if st.inString = false then ⟨true, some c⟩
    else if st.stringChar = some c then ⟨false, none⟩
    else st
  else st

/-- The split loop: accumulate characters, and on a semicolon outside a
string emit the trimmed accumulation (when non-empty) and restart. -/
def splitRawGo : List Char → Option Char → ScanSt → List Char → List (List Char)
  | [], _, _, cur => if trimC cur = [] then [] else [trimC cur]
  | c :: rest, prev, st, cur =>
    let st' := quoteStep prev c st
    if c = ';' ∧ st'.inString = false then
      (if trimC cur = [] then [] else [trimC cur]) ++ splitRawGo rest (some c) st' []
    else splitRawGo rest (some c) st' (cur ++ [c])

/-- Raw statement splitting: the loop started on the whole text. -/
def splitRaw (text : List Char) : List (List Char) := splitRawGo text none ⟨false, none⟩ []

namespace QueryCommands

/-- QueryCommands.parseStatements: split on semicolons outside strings, then
filter out statements that are empty after comment stripping. -/
def parseStatements (queryText : List Char) : List (List Char) :=
  (splitRaw queryText).filter (fun stmt => decide (stripAll stmt ≠ []))

end QueryCommands

namespace CqlCodeLensProvider

/-- The keyword alternatives of the validity regex of
CqlCodeLensProvider.isValidStatement, in source order. -/
def cqlKeywords : List (List Char) :=
  [strL "SELECT", strL "INSERT", strL "UPDATE", strL "DELETE", strL "CREATE",
   strL "ALTER", strL "DROP", strL "TRUNCATE", strL "USE", strL "BEGIN",
   strL "APPLY", strL "BATCH", strL "DESCRIBE", strL "DESC", strL "LIST",
   strL "COPY", strL "SOURCE", strL "CAPTURE", strL "CONSISTENCY",
   strL "SERIAL", strL "PAGING", strL "EXPAND", strL "TRACING", strL "HELP"]

/-- Word characters of the JS regex word-boundary. -/
def isWordChar (c : Char) : Bool := c.isAlpha || c.isDigit || decide (c = '_')

/-- Case-insensitive keyword-at-start test followed by a word boundary,
the meaning of one alternative of the anchored validity regex. -/
def kwAtStart : List Char → List Char → Bool
  | [], rest =>
    match rest with
    | [] => true
    | c :: _ => !isWordChar c
  | _ :: _, [] => false
  | k :: ks, c :: cs => decide (c.toLower = k.toLower) && kwAtStart ks cs

/-- CqlCodeLensProvider.isValidStatement: the text begins with one of the
recognized command keywords (case-insensitive, word boundary after it). -/
def isValidStatement (text : List Char) : Bool :=
  cqlKeywords.any (fun kw => kwAtStart kw text)

/-- CqlCodeLensProvider.parseStatements: the same split as
QueryCommands.parseStatements, but keeping only statements that are
non-empty after comment stripping and pass the keyword validity check. -/
def parseStatements (text : List Char) : List (List Char) :=
  (splitRaw text).filter (fun stmt =>
    decide (stripAll stmt ≠ []) && isValidStatement (stripAll stmt))

/-- Statement text together with its tracked line numbers, as produced by
CqlCodeLensProvider.parseStatementsWithLines. -/
structure StatementInfo where
  text : List Char
  startLine : Nat
  endLine : Nat
  cqlStartLine : Nat
deriving DecidableEq

/-- One line of a statement counts as code if it is non-empty after removing
a line comment and the inline block comments, as in
CqlCodeLensProvider.findCqlStartLine. -/
def lineHasCode (l : List Char) : Bool :=
  decide (trimC (stripBlockComments (cutLineComment l)) ≠ [])

/-- Scan of the statement lines for the first one containing code. -/
def findCqlAux (base : Nat) : Nat → List (List Char) → Nat
  | _, [] => base
  | i, l :: ls => if lineHasCode l then base + i else findCqlAux base (i + 1) ls

/-- CqlCodeLensProvider.findCqlStartLine: document line of the first line of
the statement that contains code, falling back to the base line. -/
def findCqlStartLine (statementText : List Char) (baseLineNumber : Nat) : Nat :=
  findCqlAux baseLineNumber 0 (splitOnNl statementText)

/-- Emission step of parseStatementsWithLines: a statement is created when
the accumulated text is non-empty after trimming, a start line was tracked,
and the comment-stripped text is non-empty and passes the keyword check. -/
def pswEmit (cur : List Char) (sStart : Option Nat) (line : Nat) : List StatementInfo :=
  match sStart with
  | none => []
  | some s =>
    let tl := trimC cur
    if tl ≠ [] ∧ stripAll tl ≠ [] ∧ isValidStatement (stripAll tl) = true then
      [⟨tl, s, line, findCqlStartLine tl s⟩]
    else []

/-- The loop of CqlCodeLensProvider.parseStatementsWithLines: the split loop
extended with a line counter (incremented on every newline, before the rest
of the body) and the tracked start line of the pending statement. -/
def pswGo : List Char → Option Char → ScanSt → List Char → Nat → Option Nat →
    List StatementInfo
  | [], _, _, cur, line, sStart => pswEmit cur sStart line
  | c :: rest, prev, st, cur, line, sStart =>
    let line' := if c = '\n' then line + 1 else line
    let st' := quoteStep prev c st
    if c = ';' ∧ st'.inString = false then
      pswEmit cur sStart line' ++ pswGo rest (some c) st' [] line' none
    else
      let sStart' := if sStart = none ∧ isWSb c = false then some line' else sStart
      pswGo rest (some c) st' (cur ++ [c]) line' sStart'

/-- CqlCodeLensProvider.parseStatementsWithLines on the document text. -/
def parseStatementsWithLines (text : List Char) : List StatementInfo :=
  pswGo text none ⟨false, none⟩ [] 0 none

end CqlCodeLensProvider

/-! ## Directive resolution -/

/-- Case-insensitive removal of an expected token from the front of a text. -/
def stripCI : List Char → List Char → Option (List Char)
  | [], rest => some rest
  | _ :: _, [] => none
  | k :: ks, c :: cs => if c.toLower = k.toLower then stripCI ks cs else none

/-- Shared front of both directive regexes on an already-trimmed line: two
dashes, optional whitespace, the marker token (case-insensitive), then at
least one whitespace character; returns the text after that whitespace. -/
def matchConnFront (line : List Char) : Option (List Char) :=
  match line with
  | '-' :: '-' :: r =>
    let r1 := r.dropWhile isWSb
    match stripCI (strL "@conn") r1 with
    | some r2 =>
      match r2 with
      | [] => none
      | c :: _ => if isWSb c then some (r2.dropWhile isWSb) else none
    | none => none
  | _ => none

/-- Characters of the identifier class of the CodeLens directive regex. -/
def isConnWordChar (c : Char) : Bool :=
  c.isAlpha || c.isDigit || decide (c = '_') || decide (c = '-')

/-- The directive regex of CqlCodeLensProvider (identifier-class capture,
no end anchor) applied to a trimmed line. -/
def matchConnCL (line : List Char) : Option (List Char) :=
  match matchConnFront line with
  | some r =>
    let cap := r.takeWhile isConnWordChar
    if cap = [] then none else some cap
  | none => none

/-- The directive regex of QueryCommands (any-character capture up to the
end of the line, then trimmed) applied to a trimmed line.  On a trimmed
line the capture is the full remainder after the whitespace run. -/
def matchConnQC (line : List Char) : Option (List Char) :=
  match matchConnFront line with
  | some r => if r = [] then none else some (trimC r)
  | none => none

/-- The shared backward loop of both directive finders: examine up to `fuel`
lines walking down from line `i`, stopping at a blank line or at line 0. -/
def findDirAux (matchFn : List Char → Option (List Char))
    (lines : List (List Char)) : Nat → Nat → Option (List Char)
  | _, 0 => none
  | i, fuel + 1 =>
    let line := trimC (lines.getD i [])
    if line = [] then none
    else
      match matchFn line with
      | some cap => some cap
      | none => if i = 0 then none else findDirAux matchFn lines (i - 1) fuel

namespace CqlCodeLensProvider

/-- CqlCodeLensProvider.findConnectionDirectiveForStatement: scan backward
from the given line through at most the ten preceding lines. -/
def findConnectionDirectiveForStatement (lines : List (List Char))
    (statementStartLine : Nat) : Option (List Char) :=
  findDirAux matchConnCL lines statementStartLine 11

end CqlCodeLensProvider

namespace QueryCommands

/-- QueryCommands.findConnectionDirectiveInDocument: locate the statement
text inside the document, derive the line where the statement text starts,
and run the same backward scan from that line. -/
def findConnectionDirectiveInDocument (docText stmtText : List Char) :
    Option (List Char) :=
  match indexOfSub docText stmtText with
  | none => none
  | some idx => findDirAux matchConnQC (splitOnNl docText) (nlCount (docText.take idx)) 11

/-- QueryCommands.getSuggestionForError: heuristic suggestion table keyed by
substrings of the lowercased error message, in source order. -/
def getSuggestionForError (errorMessage : List Char) : Option (List Char) :=
  let m := toLowerL errorMessage
  if containsSub m (strL "unauthorized") then
    some (strL "Check your connection credentials. You may not have permission to access this resource.")
  else if containsSub m (strL "keyspace") && containsSub m (strL "does not exist") then
    some (strL "The keyspace does not exist. Check the keyspace name or create it first.")
  else if containsSub m (strL "table") && containsSub m (strL "does not exist") then
    some (strL "The table does not exist. Check the table name or create it first.")
  else if containsSub m (strL "syntax error") || containsSub m (strL "invalid syntax") then
    some (strL "Check your CQL syntax. Common issues: missing semicolons, incorrect keywords, or invalid identifiers.")
  else if containsSub m (strL "allow filtering") then
    some (strL "This query requires ALLOW FILTERING. Add it to the end of your query, but be aware it may be slow on large tables.")
  else if containsSub m (strL "partition key") then
    some (strL "You must include the partition key in your WHERE clause, or use ALLOW FILTERING.")
  else if containsSub m (strL "timeout") || containsSub m (strL "timed out") then
    some (strL "Query timed out. Try adding a LIMIT clause or filtering to reduce the result set.")
  else if containsSub m (strL "cannot execute") && containsSub m (strL "consistency") then
    some (strL "Not enough replicas are available. Check your cluster health and consistency level settings.")
  else none

end QueryCommands

/-! ## Execution history store (ExecutionTimeTracker) -/

/-- ExecutionRecord of executionTimeTracker.ts; the timestamp is the epoch
value of the JS Date. -/
structure ExecRecordT where
  executionTime : Nat
  rowCount : Nat
  timestamp : Nat
  success : Bool
deriving DecidableEq

/-- Map.set on a JS Map rendered as an insertion-ordered association list:
replace the value in place when the key exists, else append. -/
def mapSet {α : Type} (m : List (List Char × α)) (k : List Char) (v : α) :
    List (List Char × α) :=
  if m.any (fun e => decide (e.1 = k)) then
    m.map (fun e => if e.1 = k then (k, v) else e)
  else m ++ [(k, v)]

/-- Map.get. -/
def mapGet {α : Type} (m : List (List Char × α)) (k : List Char) : Option α :=
  match m.find? (fun e => decide (e.1 = k)) with
  | some e => some e.2
  | none => none

/-- Map.delete: remove the entry with the key (the first, were there ever
duplicates). -/
def mapDelete {α : Type} (m : List (List Char × α)) (k : List Char) :
    List (List Char × α) :=
  match m with
  | [] => []
  | e :: rest => if e.1 = k then rest else e :: mapDelete rest k

/-- Decimal digits of a number, as the JS template literal renders it. -/
def natChars (n : Nat) : List Char := Nat.toDigits 10 n

/-- ExecutionTimeTracker state: statement-level and file-level maps. -/
structure TrackerState where
  executions : List (List Char × ExecRecordT)
  fileExecutions : List (List Char × Nat)
deriving DecidableEq

/-- The empty tracker. -/
def emptyTracker : TrackerState := ⟨[], []⟩

/-- ExecutionTimeTracker.makeKey: uri, colon, start line, dash, end line. -/
def makeKey (uri : List Char) (startLine endLine : Nat) : List Char :=
  uri ++ ':' :: (natChars startLine ++ '-' :: natChars endLine)

/-- Stable insertion into a timestamp-sorted list: an element with an equal
timestamp goes after the ones already present, as the stable JS sort does. -/
def insertByTs (x : List Char × Nat) :
    List (List Char × Nat) → List (List Char × Nat)
  | [] => [x]
  | y :: ys => if y.2 ≤ x.2 then y :: insertByTs x ys else x :: y :: ys

/-- Stable ascending sort by timestamp (the JS comparator on getTime). -/
def sortByTs (l : List (List Char × Nat)) : List (List Char × Nat) :=
  l.foldl (fun acc x => insertByTs x acc) []

/-- ExecutionTimeTracker.cleanup: collect the keys of the file (prefix
match on the uri followed by a colon) with their timestamps; when more than
100, delete the 20 oldest by timestamp. -/
def cleanup (uri : List Char) (st : TrackerState) : TrackerState :=
  let fileKeys := (st.executions.filter
      (fun e => startsWithL e.1 (uri ++ [':']))).map (fun e => (e.1, e.2.timestamp))
  if fileKeys.length ≤ 100 then st
  else
    let toRemove := (sortByTs fileKeys).take 20
    { st with executions := toRemove.foldl (fun m item => mapDelete m item.1) st.executions }

/-- The pure insertion step of recordExecution, before cleanup runs. -/
def insertOnly (uri : List Char) (startLine endLine : Nat) (rec : ExecRecordT)
    (st : TrackerState) : TrackerState :=
  { st with executions := mapSet st.executions (makeKey uri startLine endLine) rec }

/-- ExecutionTimeTracker.recordExecution: set the record at its key, then
run cleanup for the uri. -/
def recordExecution (uri : List Char) (startLine endLine : Nat)
    (rec : ExecRecordT) (st : TrackerState) : TrackerState :=
  cleanup uri (insertOnly uri startLine endLine rec st)

/-- ExecutionTimeTracker.getLastExecution. -/
def getLastExecution (uri : List Char) (startLine endLine : Nat)
    (st : TrackerState) : Option ExecRecordT :=
  mapGet st.executions (makeKey uri startLine endLine)

/-- ExecutionTimeTracker.recordFileExecution. -/
def recordFileExecution (uri : List Char) (totalTime : Nat)
    (st : TrackerState) : TrackerState :=
  { st with fileExecutions := mapSet st.fileExecutions uri totalTime }

/-- ExecutionTimeTracker.getFileExecutionTime. -/
def getFileExecutionTime (uri : List Char) (st : TrackerState) : Option Nat :=
  mapGet st.fileExecutions uri

/-- ExecutionTimeTracker.clearFile: delete every statement-level key that
starts with the uri followed by a colon, and the file-level entry. -/
def clearFile (uri : List Char) (st : TrackerState) : TrackerState :=
  let keysToDelete := (st.executions.filter
      (fun e => startsWithL e.1 (uri ++ [':']))).map (fun e => e.1)
  { executions := keysToDelete.foldl mapDelete st.executions,
    fileExecutions := mapDelete st.fileExecutions uri }

/-- Number of statement-level entries the tracker associates with a uri
(the prefix-match count that cleanup itself uses). -/
def countFor (uri : List Char) (st : TrackerState) : Nat :=
  (st.executions.filter (fun e => startsWithL e.1 (uri ++ [':']))).length

/-! ## Execution orchestration (QueryCommands.executeQuery and
QueryCommands.executeStatementAtLine)

The loop is embedded after its editor/connection preconditions, with the
external collaborators as parameters: the per-statement driver call is a
function from the statement index to an outcome, and the connection-switch
interaction (storage lookup plus user prompt) is a boolean decision on the
directive value.  Every observable effect of the loop is emitted as an
event, in source order. -/

/-- Outcome of one driver execute call: elapsed wall-clock milliseconds and
row count on success, or the raised error message. -/
inductive ExecOutcome where
  | ok (elapsedMs rowCount : Nat)
  | err (msg : List Char)
deriving DecidableEq

/-- Success test of an outcome. -/
def isOk : ExecOutcome → Bool
  | .ok _ _ => true
  | .err _ => false

/-- Elapsed milliseconds of an outcome (0 for a failure). -/
def elapsedOf : ExecOutcome → Nat
  | .ok e _ => e
  | .err _ => 0

/-- Row count of an outcome (0 for a failure). -/
def rowsOf : ExecOutcome → Nat
  | .ok _ r => r
  | .err _ => 0

/-- Observable events of an orchestrator run, in order of occurrence. -/
inductive Event where
  | noValidStatements
  | warnNoStatementText
  | infoCancelled
  | showExecuting (stmt : List Char)
  | clientExecute (stmt : List Char)
  | showResults (stmt : List Char) (executionTime rowCount : Nat)
  | statusBar (executionTime rowCount : Nat) (multi : Option (Nat × Nat))
  | showError (stmt msg : List Char) (suggestion : Option (List Char))
  | errorNotification (msg : List Char)
  | stoppedWarning (k n : Nat)
  | recordExecution (uri : List Char) (startLine endLine : Nat) (rec : ExecRecordT)
  | recordFileExecution (uri : List Char) (totalMs : Nat)
  | refreshLenses
deriving DecidableEq

/-- Truthiness of the optional directive value, as the JS if-test sees it
(an empty string is falsy). -/
def dirTruthy : Option (List Char) → Bool
  | some c => decide (c ≠ [])
  | none => false

/-- Collaborators of one executeQuery run: the document text used for
directive lookups, the document identity, the connection-switch decision,
and the driver call by statement index. -/
structure RunCtx where
  docText : List Char
  uri : List Char
  shouldProceed : List Char → Bool
  exec : Nat → ExecOutcome

/-- The statement loop of executeQuery over the remaining statements,
carrying the statement index and the accumulated total execution time;
returns the emitted events and the final total. -/
def runStmts (ctx : RunCtx) (n : Nat) :
    List (List Char) → Nat → Nat → List Event × Nat
  | [], _, total => ([], total)
  | stmt :: rest, i, total =>
    let dir := QueryCommands.findConnectionDirectiveInDocument ctx.docText stmt
    if dirTruthy dir = true ∧ ctx.shouldProceed (dir.getD []) = false then
      ([Event.infoCancelled], total)
    else
      match ctx.exec i with
      | .ok ms rc =>
        let (evs, tot) := runStmts ctx n rest (i + 1) (total + ms)
        (Event.showExecuting stmt :: Event.clientExecute stmt ::
          ((if i = n - 1 ∨ n = 1 then [Event.showResults stmt ms rc] else []) ++
            Event.statusBar ms rc (if 1 < n then some (i + 1, n) else none) :: evs),
         tot)
      | .err m =>
        (Event.showExecuting stmt :: Event.clientExecute stmt ::
          Event.showError stmt m (QueryCommands.getSuggestionForError m) ::
          Event.errorNotification m ::
          (if 1 < n then [Event.stoppedWarning (i + 1) n] else []),
         total)

/-- QueryCommands.executeQuery after its editor/connection checks: parse the
text, bail out when nothing parses, run the loop, and finally record the
file total when it is positive. -/
def executeQueryModel (ctx : RunCtx) (text : List Char) : List Event :=
  let stmts := QueryCommands.parseStatements text
  if stmts = [] then [Event.noValidStatements]
  else
    let (evs, total) := runStmts ctx stmts.length stmts 0 0
    evs ++ (if 0 < total then [Event.recordFileExecution ctx.uri total] else [])

/-- Statement text extraction of executeStatementAtLine: the text of the
line range, trimmed, with one trailing semicolon removed and re-trimmed. -/
def stmtTextOf (docLines : List (List Char)) (startLine endLine : Nat) : List Char :=
  let raw := joinNl ((docLines.drop startLine).take (endLine + 1 - startLine))
  let t0 := trimC raw
  if t0.getLast? = some ';' then trimC t0.dropLast else t0

/-- The ExecutionRecord executeStatementAtLine stores for an outcome:
measured time, row count and success on success; zeros and failure on error. -/
def recOf (outcome : ExecOutcome) (now : Nat) : ExecRecordT :=
  match outcome with
  | .ok ms rc => ⟨ms, rc, now, true⟩
  | .err _ => ⟨0, 0, now, false⟩

/-- QueryCommands.executeStatementAtLine after its connection checks, over
the same collaborator boundary; `now` is the Date timestamp taken when the
record is created. -/
def executeStatementAtLineModel (uri : List Char) (startLine endLine : Nat)
    (docLines : List (List Char)) (proceed : List Char → Bool)
    (outcome : ExecOutcome) (now : Nat) : List Event :=
  let stmtText := stmtTextOf docLines startLine endLine
  if stmtText = [] then [Event.warnNoStatementText]
  else
    let dir := QueryCommands.findConnectionDirectiveInDocument (joinNl docLines) stmtText
    if dirTruthy dir = true ∧ proceed (dir.getD []) = false then
      [Event.infoCancelled]
    else
      Event.showExecuting stmtText :: Event.clientExecute stmtText ::
      match outcome with
      | .ok ms rc =>
        [Event.recordExecution uri startLine endLine (recOf outcome now),
         Event.showResults stmtText ms rc,
         Event.statusBar ms rc none,
         Event.refreshLenses]
      | .err m =>
        [Event.recordExecution uri startLine endLine (recOf outcome now),
         Event.showError stmtText m (QueryCommands.getSuggestionForError m),
         Event.errorNotification m,
         Event.refreshLenses]

/-- Total elapsed time of the outcomes of `count` statements starting at
index `i0`. -/
def sumElapsedFrom (exec : Nat → ExecOutcome) (i0 count : Nat) : Nat :=
  ((List.range count).map (fun j => elapsedOf (exec (i0 + j)))).sum

/-- The event trace of a streak of successful statements, as emitted by the
loop of executeQuery. -/
def okTrace (ctx : RunCtx) (n : Nat) : List (List Char) → Nat → List Event
  | [], _ => []
  | stmt :: rest, i =>
    Event.showExecuting stmt :: Event.clientExecute stmt ::
      ((if i = n - 1 ∨ n = 1 then
          [Event.showResults stmt (elapsedOf (ctx.exec i)) (rowsOf (ctx.exec i))]
        else []) ++
        Event.statusBar (elapsedOf (ctx.exec i)) (rowsOf (ctx.exec i))
            (if 1 < n then some (i + 1, n) else none) ::
          okTrace ctx n rest (i + 1))

/-- Recognizer of driver-call events. -/
def isClientExecute : Event → Bool
  | .clientExecute _ => true
  | _ => false

/-- Recognizer of published tabular results. -/
def isShowResults : Event → Bool
  | .showResults _ _ _ => true
  | _ => false

/-- Recognizer of published errors. -/
def isShowError : Event → Bool
  | .showError _ _ _ => true
  | _ => false

/-- Recognizer of statement-level history records. -/
def isRecordExecution : Event → Bool
  | .recordExecution _ _ _ _ => true
  | _ => false

/-! ## Scenario fixtures and specification predicates used by the claims -/

/-- The span constraint of one statement: the first code line lies between
the start line and the end line. -/
def okStmtSpan (x : CqlCodeLensProvider.StatementInfo) : Prop :=
  x.startLine ≤ x.cqlStartLine ∧ x.cqlStartLine ≤ x.endLine

/-- Ordered chaining of statements from a lower line bound: each statement
starts at or after the bound and satisfies its span constraint, and the
following statements chain from its end line. -/
def chainedFrom : Nat → List CqlCodeLensProvider.StatementInfo → Prop
  | _, [] => True
  | lo, x :: xs => lo ≤ x.startLine ∧ okStmtSpan x ∧ chainedFrom x.endLine xs

/-- Lower bound used for the chaining invariant: the tracked start line when
one is pending, else the current line. -/
def lowOf : Option Nat → Nat → Nat
  | some s, _ => s
  | none, line => line

/-- Loop invariant of the line-tracking scan: with no tracked start line the
accumulation is pure whitespace; with a tracked start line s the
accumulation contains code, s is at most the current line, and the newlines
after the first non-blank character of the accumulation account exactly for
the lines passed since s. -/
def INVp (cur : List Char) (line : Nat) : Option Nat → Prop
  | none => ∀ c ∈ cur, isWSb c = true
  | some s => s ≤ line ∧ nlCount (trimL cur) = line - s ∧ ∃ c ∈ cur, isWSb c = false

/-- One insertion step of the C9 scenario: a record for statement position
(i, i) of document u with timestamp i. -/
def c9Insert (st : TrackerState) (i : Nat) : TrackerState :=
  recordExecution (strL "u") i i ⟨1, 1, i, true⟩ st

/-- The tracker after recording 101 distinct statement positions. -/
def c9Final : TrackerState := (List.range 101).foldl c9Insert emptyTracker

/-- The tracker after recording the first 100 of those positions. -/
def c9Pre : TrackerState := (List.range 100).foldl c9Insert emptyTracker

/-- Tracker state of the C10 scenario: statement records for the documents
a and a:b, and file totals for a and b. -/
def c10State : TrackerState :=
  recordFileExecution (strL "b") 7
    (recordFileExecution (strL "a") 5
      (recordExecution (strL "a") 1 1 ⟨3, 2, 10, true⟩
        (recordExecution (strL "a:b") 1 1 ⟨4, 2, 11, true⟩ emptyTracker)))

/-- Concrete run context of the C3 scenario: three statements, the driver
failing on the second. -/
def c3Ctx : RunCtx :=
  { docText := strL "SELECT 1;\nSELECT bad;\nSELECT 3;"
    uri := strL "file:///a.cql"
    shouldProceed := fun _ => true
    exec := fun j => if j = 1 then ExecOutcome.err (strL "syntax error near bad")
      else ExecOutcome.ok 5 2 }

/-- Concrete run context of the C5 scenario: three statements, all
succeeding with distinct elapsed times and row counts. -/
def c5Ctx : RunCtx :=
  { docText := strL "SELECT 1;\nSELECT 2;\nSELECT 3;"
    uri := strL "file:///a.cql"
    shouldProceed := fun _ => true
    exec := fun j => ExecOutcome.ok (j + 3) (j + 1) }

/-- Run context of the C4 counterexample: a single successful statement. -/
def c4Ctx : RunCtx :=
  { docText := strL "SELECT 1;"
    uri := strL "file:///a.cql"
    shouldProceed := fun _ => true
    exec := fun _ => ExecOutcome.ok 5 3 }

/-! ## General lemmas about the embedded string operations -/

theorem trimL_cons_of_not_ws (a : Char) (l : List Char) (ha : isWSb a = false) :
    trimL (a :: l) = a :: l := by
  simp [trimL, List.dropWhile_cons, ha]

theorem trimR_append_of_not_ws (l : List Char) (b : Char) (hb : isWSb b = false) :
    trimR (l ++ [b]) = l ++ [b] := by
  simp [trimR, List.dropWhile_cons, hb]

theorem trimC_sandwich (a : Char) (m : List Char) (b : Char)
    (ha : isWSb a = false) (hb : isWSb b = false) :
    trimC (a :: (m ++ [b])) = a :: (m ++ [b]) := by
  have h1 : trimL (a :: (m ++ [b])) = a :: (m ++ [b]) := trimL_cons_of_not_ws a _ ha
  have h2 : trimR ((a :: m) ++ [b]) = (a :: m) ++ [b] := trimR_append_of_not_ws (a :: m) b hb
  simp only [trimC, h1]
  simpa using h2

theorem splitOnNl_of_no_nl (l : List Char) (h : '\n' ∉ l) : splitOnNl l = [l] := by
  induction l with
  | nil => rfl
  | cons c cs ih =>
    have hc : c ≠ '\n' := fun he => h (he ▸ List.mem_cons_self c cs)
    have hcs : '\n' ∉ cs := fun hm => h (List.mem_cons_of_mem c hm)
    simp [splitOnNl, hc, ih hcs]

theorem cutLineComment_of_no_dash (l : List Char) (h : '-' ∉ l) :
    cutLineComment l = l := by
  induction l with
  | nil => rfl
  | cons c cs ih =>
    have hc : c ≠ '-' := fun he => h (he ▸ List.mem_cons_self c cs)
    have hcs : '-' ∉ cs := fun hm => h (List.mem_cons_of_mem c hm)
    simp [cutLineComment, hc, ih hcs]

theorem sbcGo_of_no_slash : ∀ (fuel : Nat) (l : List Char), '/' ∉ l →
    sbcGo fuel l = l := by
  intro fuel
  induction fuel with
  | zero => intro l _; rfl
  | succ n ih =>
    intro l h
    match l with
    | [] => rfl
    | [c] => rfl
    | a :: b :: rest =>
      have ha : a ≠ '/' := fun he => h (he ▸ List.mem_cons_self a (b :: rest))
      rw [sbcGo, if_neg (fun hab => ha hab.1),
        ih (b :: rest) (fun hm => h (List.mem_cons_of_mem a hm))]

theorem stripBlockComments_of_no_slash (l : List Char) (h : '/' ∉ l) :
    stripBlockComments l = l :=
  sbcGo_of_no_slash (l.length + 1) l h

theorem stripLineComments_of_no (l : List Char) (h1 : '\n' ∉ l) (h2 : '-' ∉ l) :
    stripLineComments l = l := by
  simp [stripLineComments, splitOnNl_of_no_nl l h1, cutLineComment_of_no_dash l h2, joinNl]

theorem stripAll_of_no (l : List Char) (h1 : '\n' ∉ l) (h2 : '-' ∉ l) (h3 : '/' ∉ l) :
    stripAll l = trimC l := by
  rw [stripAll, stripLineComments_of_no l h1 h2, stripBlockComments_of_no_slash l h3]

theorem quoteStep_of_not_quote (prev : Option Char) (c : Char) (st : ScanSt)
    (h1 : c ≠ '\'') (h2 : c ≠ '"') : quoteStep prev c st = st := by
  simp [quoteStep, h1, h2]

theorem quoteStep_newline (prev : Option Char) (st : ScanSt) :
    quoteStep prev '\n' st = st :=
  quoteStep_of_not_quote prev '\n' st (by decide) (by decide)

/-! ## Claim C1: splitting versus quoted strings and block comments -/

theorem splitRawGo_in_string (mid : List Char) :
    ∀ (prev : Option Char) (cur : List Char),
    (∀ c ∈ mid, c ≠ '\'' ∧ c ≠ '"' ∧ c ≠ '\\') → prev ≠ some '\\' →
    splitRawGo (mid ++ ['\'', ';']) prev ⟨true, some '\''⟩ cur =
      if trimC (cur ++ (mid ++ ['\''])) = [] then []
      else [trimC (cur ++ (mid ++ ['\'']))] := by
  induction mid with
  | nil =>
    intro prev cur _ hprev
    have hq : quoteStep prev '\'' ⟨true, some '\''⟩ = ⟨false, none⟩ := by
      simp [quoteStep, hprev]
    simp only [List.nil_append, splitRawGo, hq]
    rw [if_neg (by simp)]
    have hsemi : quoteStep (some '\'') ';' ⟨false, none⟩ = ⟨false, none⟩ :=
      quoteStep_of_not_quote _ _ _ (by decide) (by decide)
    simp only [splitRawGo, hsemi]
    rw [if_pos (by simp)]
    by_cases he : trimC (cur ++ ['\'']) = [] <;> simp [he, trimC, trimL, trimR]
  | cons c mid' ih =>
    intro prev cur h hprev
    have hc := h c (List.mem_cons_self c mid')
    have hq : quoteStep prev c ⟨true, some '\''⟩ = ⟨true, some '\''⟩ :=
      quoteStep_of_not_quote prev c _ hc.1 hc.2.1
    simp only [List.cons_append, splitRawGo, hq]
    rw [if_neg (by simp)]
    have h' : ∀ x ∈ mid', x ≠ '\'' ∧ x ≠ '"' ∧ x ≠ '\\' :=
      fun x hx => h x (List.mem_cons_of_mem c hx)
    have hprev' : some c ≠ some '\\' := by
      intro he
      exact hc.2.2 (Option.some.inj he)
    have hrec := ih (some c) (cur ++ [c]) h' hprev'
    simp only [List.append_eq] at hrec ⊢
    rw [hrec]
    simp [List.append_assoc]

/-- C1 (corrected): a semicolon inside a single- or double-quoted string
never ends a statement — for any quote content free of quote, backslash,
newline, dash and slash characters (so that neither comment regex can fire
inside it), the quoted statement is returned whole, semicolons inside the
quotes included; in particular the spec example yields exactly one
statement.  Block comments, however, are not tracked by this scanner (see
the counterexample). -/
theorem c1_string_immunity (mid : List Char)
    (h : ∀ c ∈ mid, c ≠ '\'' ∧ c ≠ '"' ∧ c ≠ '\\' ∧ c ≠ '\n' ∧ c ≠ '-' ∧ c ≠ '/') :
    QueryCommands.parseStatements
        (strL "SELECT * FROM t WHERE name = '" ++ (mid ++ ['\'', ';'])) =
      [strL "SELECT * FROM t WHERE name = '" ++ (mid ++ ['\''])] := by
  have hmid3 : ∀ c ∈ mid, c ≠ '\'' ∧ c ≠ '"' ∧ c ≠ '\\' :=
    fun c hc => ⟨(h c hc).1, (h c hc).2.1, (h c hc).2.2.1⟩
  have h0 : splitRaw (strL "SELECT * FROM t WHERE name = '" ++ (mid ++ ['\'', ';'])) =
      splitRawGo (mid ++ ['\'', ';']) (some '\'') ⟨true, some '\''⟩
        (strL "SELECT * FROM t WHERE name = '") := rfl
  have h1 := splitRawGo_in_string mid (some '\'')
    (strL "SELECT * FROM t WHERE name = '") hmid3 (by decide)
  have hshape : strL "SELECT * FROM t WHERE name = '" ++ (mid ++ ['\'']) =
      'S' :: ((strL "ELECT * FROM t WHERE name = '" ++ mid) ++ ['\'']) := by
    simp [strL, List.append_assoc]
  have htrim : trimC (strL "SELECT * FROM t WHERE name = '" ++ (mid ++ ['\''])) =
      strL "SELECT * FROM t WHERE name = '" ++ (mid ++ ['\'']) := by
    rw [hshape]
    exact trimC_sandwich 'S' _ '\'' (by decide) (by decide)
  have hne : strL "SELECT * FROM t WHERE name = '" ++ (mid ++ ['\'']) ≠ [] := by
    rw [hshape]; simp
  rw [QueryCommands.parseStatements, h0, h1, htrim, if_neg hne]
  have hnl : '\n' ∉ strL "SELECT * FROM t WHERE name = '" ++ (mid ++ ['\'']) := by
    intro hm
    rcases List.mem_append.mp hm with h' | h'
    · exact absurd h' (by decide)
    · rcases List.mem_append.mp h' with h'' | h''
      · exact (h _ h'').2.2.2.1 rfl
      · simp at h''
  have hdash : '-' ∉ strL "SELECT * FROM t WHERE name = '" ++ (mid ++ ['\'']) := by
    intro hm
    rcases List.mem_append.mp hm with h' | h'
    · exact absurd h' (by decide)
    · rcases List.mem_append.mp h' with h'' | h''
      · exact (h _ h'').2.2.2.2.1 rfl
      · simp at h''
  have hslash : '/' ∉ strL "SELECT * FROM t WHERE name = '" ++ (mid ++ ['\'']) := by
    intro hm
    rcases List.mem_append.mp hm with h' | h'
    · exact absurd h' (by decide)
    · rcases List.mem_append.mp h' with h'' | h''
      · exact (h _ h'').2.2.2.2.2 rfl
      · simp at h''
  rw [List.filter_cons]
  rw [if_pos (by
    simp only [decide_eq_true_eq]
    rw [stripAll_of_no _ hnl hdash hslash, htrim]
    exact hne)]
  simp

/-- C1 witness: the exact example of the specification, obtained from the
theorem at the quote content a;b. -/
theorem c1_string_immunity_witness :
    QueryCommands.parseStatements (strL "SELECT * FROM t WHERE name = 'a;b';") =
      [strL "SELECT * FROM t WHERE name = 'a;b'"] := by
  have h := c1_string_immunity (strL "a;b") (by decide)
  have e1 : strL "SELECT * FROM t WHERE name = '" ++ (strL "a;b" ++ ['\'', ';']) =
      strL "SELECT * FROM t WHERE name = 'a;b';" := by decide
  have e2 : strL "SELECT * FROM t WHERE name = '" ++ (strL "a;b" ++ ['\'']) =
      strL "SELECT * FROM t WHERE name = 'a;b'" := by decide
  rw [e1, e2] at h
  exact h

/-- C1 counterexample: the scanner carries no block-comment state, so the
semicolon inside the block comment of this input does split, producing two
statements instead of the one the claim requires. -/
theorem c1_block_comment_splits :
    QueryCommands.parseStatements (strL "SELECT /* a;b */ 1;") =
      [strL "SELECT /* a", strL "b */ 1"] := by decide

/-! ## Claim C2: scanner state at line boundaries -/

/-- C2 (corrected): the quote/comment scanning state is NOT reset at line
boundaries — a newline character leaves the quote state entirely unchanged
(first conjunct), so in the spec example the unterminated quote on the first
line swallows the second line: both statement splitters return the whole
two-line text as one single statement, and the semicolon after SELECT 1 is
consumed inside the string (remaining conjuncts). -/
theorem c2_no_line_reset :
    (∀ (prev : Option Char) (st : ScanSt), quoteStep prev '\n' st = st)
    ∧ QueryCommands.parseStatements (strL "SELECT 'unterminated\nSELECT 1;") =
        [strL "SELECT 'unterminated\nSELECT 1;"]
    ∧ CqlCodeLensProvider.parseStatementsWithLines
        (strL "SELECT 'unterminated\nSELECT 1;") =
        [⟨strL "SELECT 'unterminated\nSELECT 1;", 0, 1, 0⟩] := by
  refine ⟨fun prev st => quoteStep_newline prev st, by decide, by decide⟩

/-- C2 counterexample: on the spec example the second line is NOT recognized
as its own statement — the splitter returns one statement, and no statement
equal to SELECT 1 (with or without its semicolon) is produced. -/
theorem c2_second_line_swallowed :
    (QueryCommands.parseStatements (strL "SELECT 'unterminated\nSELECT 1;")).length = 1
    ∧ strL "SELECT 1" ∉ QueryCommands.parseStatements (strL "SELECT 'unterminated\nSELECT 1;")
    ∧ strL "SELECT 1;" ∉ QueryCommands.parseStatements (strL "SELECT 'unterminated\nSELECT 1;") := by
  decide

/-! ## Claim C8: filtering of emitted statements -/

/-- C8 (corrected): every statement emitted by the CodeLens segmenter is
non-empty after comment stripping and begins with a recognized command
keyword (hence contains one); every statement emitted by the QueryCommands
segmenter is non-empty after comment stripping, but that segmenter performs
NO keyword check (see the counterexample); an input consisting only of
comments yields zero statements from both. -/
theorem c8_statement_filtering :
    (∀ (text stmt : List Char), stmt ∈ CqlCodeLensProvider.parseStatements text →
        stripAll stmt ≠ [] ∧ CqlCodeLensProvider.isValidStatement (stripAll stmt) = true)
    ∧ (∀ (text stmt : List Char), stmt ∈ QueryCommands.parseStatements text →
        stripAll stmt ≠ [])
    ∧ QueryCommands.parseStatements (strL "-- comment\n/* block */") = []
    ∧ CqlCodeLensProvider.parseStatements (strL "-- comment\n/* block */") = [] := by
  refine ⟨?_, ?_, by decide, by decide⟩
  · intro text stmt hm
    have h2 := (List.mem_filter.mp hm).2
    simp only [Bool.and_eq_true, decide_eq_true_eq] at h2
    exact h2
  · intro text stmt hm
    have h2 := (List.mem_filter.mp hm).2
    simpa using h2

/-- C8 witness: a concrete statement emitted by the CodeLens segmenter,
with the guarantees of the theorem instantiated on it. -/
theorem c8_statement_filtering_witness :
    strL "SELECT 1" ∈ CqlCodeLensProvider.parseStatements (strL "SELECT 1;")
    ∧ (stripAll (strL "SELECT 1") ≠ []
       ∧ CqlCodeLensProvider.isValidStatement (stripAll (strL "SELECT 1")) = true) :=
  ⟨by decide, c8_statement_filtering.1 (strL "SELECT 1;") (strL "SELECT 1") (by decide)⟩

/-- C8 counterexample: the QueryCommands segmenter emits a statement that
contains no recognized command keyword at all, contradicting the claim for
that segmenter. -/
theorem c8_keywordless_statement_kept :
    QueryCommands.parseStatements (strL "foobar;") = [strL "foobar"]
    ∧ CqlCodeLensProvider.isValidStatement (strL "foobar") = false
    ∧ (∀ kw ∈ CqlCodeLensProvider.cqlKeywords, containsSub (strL "foobar") kw = false) := by
  decide

/-! ## Claim C6: directive resolution -/

theorem findDirAux_sound (matchFn : List Char → Option (List Char))
    (lines : List (List Char)) :
    ∀ (fuel i : Nat) (cap : List Char), findDirAux matchFn lines i fuel = some cap →
    ∃ k, k < fuel ∧ k ≤ i ∧ matchFn (trimC (lines.getD (i - k) [])) = some cap ∧
      ∀ j, i - k < j → j ≤ i →
        trimC (lines.getD j []) ≠ [] ∧ matchFn (trimC (lines.getD j [])) = none := by
  intro fuel
  induction fuel with
  | zero => intro i cap h; simp [findDirAux] at h
  | succ n ih =>
    intro i cap h
    simp only [findDirAux] at h
    by_cases hblank : trimC (lines.getD i []) = []
    · rw [if_pos hblank] at h; cases h
    · rw [if_neg hblank] at h
      cases hm : matchFn (trimC (lines.getD i [])) with
      | some c =>
        simp only [hm] at h
        refine ⟨0, by omega, by omega, ?_, ?_⟩
        · rw [Nat.sub_zero, hm, h]
        · intro j hj1 hj2; omega
      | none =>
        simp only [hm] at h
        by_cases hi : i = 0
        · rw [if_pos hi] at h; cases h
        · rw [if_neg hi] at h
          obtain ⟨k, hk1, hk2, hk3, hk4⟩ := ih (i - 1) cap h
          refine ⟨k + 1, by omega, by omega, ?_, ?_⟩
          · have he : i - (k + 1) = (i - 1) - k := by omega
            rw [he]; exact hk3
          · intro j hj1 hj2
            by_cases hji : j = i
            · subst hji; exact ⟨hblank, hm⟩
            · exact hk4 j (by omega) (by omega)

/-- C6 (corrected): for the CodeLens resolver the claim holds: on the
example the statement's first code line is line 2 and the resolved directive
is B (first conjunct), and in general every resolved directive comes from a
line at most ten lines above the scan start, with every line strictly
between the match and the scan start non-blank and without a directive —
the nearest preceding directive wins (second conjunct).  The QueryCommands
resolver instead starts scanning at the line where the statement text
itself (leading comment lines included) begins, so on the example it
resolves A — see the counterexample. -/
theorem c6_directive_resolution :
    (CqlCodeLensProvider.parseStatementsWithLines
        (strL "-- @conn A\n-- @conn B\nSELECT 1;") =
        [⟨strL "-- @conn A\n-- @conn B\nSELECT 1", 0, 2, 2⟩]
     ∧ CqlCodeLensProvider.findConnectionDirectiveForStatement
        [strL "-- @conn A", strL "-- @conn B", strL "SELECT 1;"] 2 = some (strL "B"))
    ∧ (∀ (lines : List (List Char)) (s : Nat) (cap : List Char),
        CqlCodeLensProvider.findConnectionDirectiveForStatement lines s = some cap →
        ∃ i, i ≤ s ∧ s ≤ i + 10 ∧
          matchConnCL (trimC (lines.getD i [])) = some cap ∧
          ∀ j, i < j → j ≤ s →
            trimC (lines.getD j []) ≠ [] ∧ matchConnCL (trimC (lines.getD j [])) = none) := by
  constructor
  · exact ⟨by decide, by decide⟩
  · intro lines s cap h
    obtain ⟨k, hk1, hk2, hk3, hk4⟩ :=
      findDirAux_sound matchConnCL lines 11 s cap h
    exact ⟨s - k, by omega, by omega, hk3, fun j hj1 hj2 => hk4 j hj1 hj2⟩

/-- C6 witness: the soundness part of the theorem instantiated on the
two-directive example, where the resolver returns B. -/
theorem c6_directive_resolution_witness :
    ∃ i, i ≤ 2 ∧ 2 ≤ i + 10 ∧
      matchConnCL (trimC ([strL "-- @conn A", strL "-- @conn B",
        strL "SELECT 1;"].getD i [])) = some (strL "B") ∧
      ∀ j, i < j → j ≤ 2 →
        trimC ([strL "-- @conn A", strL "-- @conn B", strL "SELECT 1;"].getD j []) ≠ []
        ∧ matchConnCL (trimC ([strL "-- @conn A", strL "-- @conn B",
            strL "SELECT 1;"].getD j [])) = none :=
  c6_directive_resolution.2 [strL "-- @conn A", strL "-- @conn B", strL "SELECT 1;"]
    2 (strL "B") (by decide)

/-- C6 counterexample: in the QueryCommands execution path the statement
text carries its leading comment lines, the resolver starts its backward
scan at the line where that text begins — the line of the A directive — and
so the resolved directive is A, not the nearest-preceding B the claim
requires. -/
theorem c6_queryCommands_resolves_A :
    QueryCommands.parseStatements (strL "-- @conn A\n-- @conn B\nSELECT 1;") =
      [strL "-- @conn A\n-- @conn B\nSELECT 1"]
    ∧ QueryCommands.findConnectionDirectiveInDocument
        (strL "-- @conn A\n-- @conn B\nSELECT 1;")
        (strL "-- @conn A\n-- @conn B\nSELECT 1") = some (strL "A")
    ∧ strL "A" ≠ strL "B" := by decide

/-! ## Claim C7: line spans of the tracking segmenter -/

theorem dropWhile_append_all {α : Type} (p : α → Bool) :
    ∀ (l r : List α), (∀ x ∈ l, p x = true) →
    (l ++ r).dropWhile p = r.dropWhile p := by
  intro l r h
  induction l with
  | nil => rfl
  | cons a t ih =>
    have ha := h a (List.mem_cons_self a t)
    simp only [List.cons_append, List.dropWhile_cons, ha, if_true]
    exact ih (fun x hx => h x (List.mem_cons_of_mem a hx))

theorem dropWhile_append_not_all {α : Type} (p : α → Bool) :
    ∀ (l r : List α), (∃ x ∈ l, p x = false) →
    (l ++ r).dropWhile p = l.dropWhile p ++ r := by
  intro l r h
  induction l with
  | nil => obtain ⟨x, hx, _⟩ := h; simp at hx
  | cons a t ih =>
    by_cases ha : p a = true
    · simp only [List.cons_append, List.dropWhile_cons, ha, if_true]
      refine ih ?_
      obtain ⟨x, hx, hpx⟩ := h
      rcases List.mem_cons.mp hx with he | hm
      · rw [he] at hpx; rw [hpx] at ha; cases ha
      · exact ⟨x, hm, hpx⟩
    · have ha' : p a = false := by
        cases hpa : p a
        · rfl
        · exact absurd hpa ha
      simp [List.dropWhile_cons, ha']

theorem nlCount_append_single (l : List Char) (c : Char) :
    nlCount (l ++ [c]) = nlCount l + (if c = '\n' then 1 else 0) := by
  by_cases h : c = '\n' <;>
    simp [nlCount, List.count_append, List.count_cons, h, eq_comm]

theorem nlCount_trimR_le (l : List Char) : nlCount (trimR l) ≤ nlCount l := by
  have h2 : List.Sublist (l.reverse.dropWhile isWSb) l.reverse :=
    List.dropWhile_sublist _
  have h3 := List.Sublist.reverse h2
  rw [List.reverse_reverse] at h3
  have h4 : List.Sublist (trimR l) l := h3
  exact List.Sublist.count_le h4 '\n'

theorem nlCount_trimC_le (l : List Char) : nlCount (trimC l) ≤ nlCount (trimL l) :=
  nlCount_trimR_le (trimL l)

theorem splitOnNl_ne_nil (l : List Char) : splitOnNl l ≠ [] := by
  induction l with
  | nil => simp [splitOnNl]
  | cons c cs ih =>
    rw [splitOnNl]
    by_cases h : c = '\n'
    · simp [h]
    · simp only [h, if_false]
      match hm : splitOnNl cs with
      | [] => simp
      | x :: t => simp

theorem splitOnNl_length (l : List Char) :
    (splitOnNl l).length = nlCount l + 1 := by
  induction l with
  | nil => simp [splitOnNl, nlCount]
  | cons c cs ih =>
    rw [splitOnNl]
    by_cases h : c = '\n'
    · simp only [h, if_true, List.length_cons, ih]
      simp [nlCount, List.count_cons]
    · simp only [h, if_false]
      have hcount : nlCount (c :: cs) = nlCount cs := by
        simp [nlCount, List.count_cons, h, eq_comm]
      match hm : splitOnNl cs with
      | [] => exact absurd hm (splitOnNl_ne_nil cs)
      | x :: t =>
        rw [hm] at ih
        simp only [List.length_cons] at ih ⊢
        rw [hcount, ← ih]

theorem findCqlAux_ge (base : Nat) :
    ∀ (ls : List (List Char)) (i : Nat),
    base ≤ CqlCodeLensProvider.findCqlAux base i ls := by
  intro ls
  induction ls with
  | nil => intro i; simp [CqlCodeLensProvider.findCqlAux]
  | cons x t ih =>
    intro i
    rw [CqlCodeLensProvider.findCqlAux]
    by_cases h : CqlCodeLensProvider.lineHasCode x = true
    · rw [if_pos h]; omega
    · rw [if_neg h]
      exact ih (i + 1)

theorem findCqlAux_le (base : Nat) :
    ∀ (ls : List (List Char)) (i : Nat), ls ≠ [] →
    CqlCodeLensProvider.findCqlAux base i ls ≤ base + i + (ls.length - 1) := by
  intro ls
  induction ls with
  | nil => intro i h; exact absurd rfl h
  | cons x t ih =>
    intro i _
    rw [CqlCodeLensProvider.findCqlAux]
    by_cases h : CqlCodeLensProvider.lineHasCode x = true
    · rw [if_pos h]; omega
    · rw [if_neg h]
      cases t with
      | nil =>
        rw [CqlCodeLensProvider.findCqlAux]
        omega
      | cons y t' =>
        have hrec := ih (i + 1) (by simp)
        simp only [List.length_cons] at hrec ⊢
        omega

theorem findCqlStartLine_ge (t : List Char) (base : Nat) :
    base ≤ CqlCodeLensProvider.findCqlStartLine t base :=
  findCqlAux_ge base (splitOnNl t) 0

theorem findCqlStartLine_le (t : List Char) (base : Nat) :
    CqlCodeLensProvider.findCqlStartLine t base ≤ base + nlCount t := by
  have h1 := findCqlAux_le base (splitOnNl t) 0 (splitOnNl_ne_nil t)
  rw [splitOnNl_length] at h1
  simpa using h1

theorem chainedFrom_mono {lo' lo : Nat} (h : lo' ≤ lo) :
    ∀ {l : List CqlCodeLensProvider.StatementInfo}, chainedFrom lo l → chainedFrom lo' l := by
  intro l hc
  match l with
  | [] => trivial
  | x :: xs => exact ⟨Nat.le_trans h hc.1, hc.2.1, hc.2.2⟩

theorem chainedFrom_mem {lo : Nat} :
    ∀ {l : List CqlCodeLensProvider.StatementInfo}, chainedFrom lo l →
    ∀ x ∈ l, okStmtSpan x := by
  intro l
  induction l generalizing lo with
  | nil => intro _ x hx; simp at hx
  | cons a t ih =>
    intro hc x hx
    rcases List.mem_cons.mp hx with he | hm
    · rw [he]; exact hc.2.1
    · exact ih hc.2.2 x hm

theorem emitted_ok (cur : List Char) (s line : Nat)
    (h1 : s ≤ line) (h2 : nlCount (trimL cur) = line - s) :
    okStmtSpan ⟨trimC cur, s, line, CqlCodeLensProvider.findCqlStartLine (trimC cur) s⟩ := by
  refine ⟨findCqlStartLine_ge (trimC cur) s, ?_⟩
  have hle := findCqlStartLine_le (trimC cur) s
  have hcount := nlCount_trimC_le cur
  simp only
  omega

theorem pswGo_chained :
    ∀ (cs : List Char) (prev : Option Char) (st : ScanSt) (cur : List Char)
      (line : Nat) (sStart : Option Nat), INVp cur line sStart →
    chainedFrom (lowOf sStart line)
      (CqlCodeLensProvider.pswGo cs prev st cur line sStart) := by
  intro cs
  induction cs with
  | nil =>
    intro prev st cur line sStart hinv
    rw [CqlCodeLensProvider.pswGo]
    match sStart with
    | none => simp [CqlCodeLensProvider.pswEmit, chainedFrom]
    | some s =>
      simp only [CqlCodeLensProvider.pswEmit, lowOf]
      split
      · exact ⟨Nat.le_refl s, emitted_ok cur s line hinv.1 hinv.2.1, trivial⟩
      · trivial
  | cons c rest ih =>
    intro prev st cur line sStart hinv
    simp only [CqlCodeLensProvider.pswGo]
    by_cases hsplit : c = ';' ∧ (quoteStep prev c st).inString = false
    · rw [if_pos hsplit]
      have hL : (if c = '\n' then line + 1 else line) = line := by
        rw [hsplit.1]; rfl
      rw [hL]
      have htail := ih (some c) (quoteStep prev c st) [] line none
        (by intro x hx; simp at hx)
      simp only [lowOf] at htail
      match sStart with
      | none =>
        simp only [CqlCodeLensProvider.pswEmit, List.nil_append, lowOf]
        exact htail
      | some s =>
        simp only [CqlCodeLensProvider.pswEmit, lowOf]
        split
        · exact ⟨Nat.le_refl s, emitted_ok cur s line hinv.1 hinv.2.1, htail⟩
        · simp only [List.nil_append]
          exact chainedFrom_mono hinv.1 htail
    · rw [if_neg hsplit]
      match sStart with
      | some s =>
        have hS : (if (some s = none ∧ isWSb c = false) then
            some (if c = '\n' then line + 1 else line) else some s) = some s := by
          simp
        rw [hS]
        have hex : ∃ x ∈ cur, isWSb x = false := hinv.2.2
        have hdw : trimL (cur ++ [c]) = trimL cur ++ [c] := by
          have := dropWhile_append_not_all isWSb cur [c] hex
          simpa [trimL] using this
        have hex' : ∃ x ∈ cur ++ [c], isWSb x = false := by
          obtain ⟨x, hx, hpx⟩ := hex
          exact ⟨x, List.mem_append_left [c] hx, hpx⟩
        by_cases hnl : c = '\n'
        · rw [if_pos hnl]
          have hinv' : INVp (cur ++ [c]) (line + 1) (some s) := by
            refine ⟨Nat.le_succ_of_le hinv.1, ?_, hex'⟩
            rw [hdw, nlCount_append_single, if_pos hnl, hinv.2.1]
            have hle := hinv.1
            omega
          have := ih (some c) (quoteStep prev c st) (cur ++ [c]) (line + 1)
            (some s) hinv'
          simpa [lowOf] using this
        · rw [if_neg hnl]
          have hinv' : INVp (cur ++ [c]) line (some s) := by
            refine ⟨hinv.1, ?_, hex'⟩
            rw [hdw, nlCount_append_single, if_neg hnl, hinv.2.1]
            omega
          have := ih (some c) (quoteStep prev c st) (cur ++ [c]) line (some s) hinv'
          simpa [lowOf] using this
      | none =>
        have hws : ∀ x ∈ cur, isWSb x = true := hinv
        by_cases hc : isWSb c = false
        · have hnl : c ≠ '\n' := by
            intro he
            rw [he] at hc
            simp [isWSb] at hc
          have hL : (if c = '\n' then line + 1 else line) = line := by
            rw [if_neg hnl]
          have hS : (if ((none : Option Nat) = none ∧ isWSb c = false) then
              some (if c = '\n' then line + 1 else line) else none) =
              some line := by
            rw [if_pos ⟨rfl, hc⟩, hL]
          rw [hS, hL]
          have hdw : trimL (cur ++ [c]) = [c] := by
            have h1 := dropWhile_append_all isWSb cur [c] hws
            have h2 : List.dropWhile isWSb [c] = [c] := by
              simp [List.dropWhile_cons, hc]
            simpa [trimL, h2] using h1
          have hinv' : INVp (cur ++ [c]) line (some line) := by
            refine ⟨Nat.le_refl line, ?_, ⟨c, List.mem_append_right cur
              (List.mem_cons_self c []), hc⟩⟩
            rw [hdw, Nat.sub_self]
            simp [nlCount, List.count_cons, hnl, eq_comm]
          have := ih (some c) (quoteStep prev c st) (cur ++ [c]) line
            (some line) hinv'
          simpa [lowOf] using this
        · have hc' : isWSb c = true := by
            cases hcc : isWSb c
            · exact absurd hcc hc
            · rfl
          have hS : (if ((none : Option Nat) = none ∧ isWSb c = false) then
              some (if c = '\n' then line + 1 else line) else none) =
              none := by
            simp [hc']
          rw [hS]
          have hinv' : INVp (cur ++ [c])
              (if c = '\n' then line + 1 else line) none := by
            intro x hx
            rcases List.mem_append.mp hx with h1 | h1
            · exact hws x h1
            · rcases List.mem_cons.mp h1 with he | hmm
              · rw [he]; exact hc'
              · simp at hmm
          have htail := ih (some c) (quoteStep prev c st) (cur ++ [c])
            (if c = '\n' then line + 1 else line) none hinv'
          simp only [lowOf] at htail ⊢
          refine chainedFrom_mono ?_ htail
          split <;> omega

/-- C7 (corrected): every statement of the line-tracking segmenter satisfies
startLine ≤ cqlStartLine ≤ endLine, and the statements appear in document
order with each statement ending at or before the next one starts — but the
order is only weakly increasing: two statements on one source line share
that line, so spans may touch and startLine is not strictly increasing (see
the counterexample). -/
theorem c7_line_span_invariants (text : List Char) :
    chainedFrom 0 (CqlCodeLensProvider.parseStatementsWithLines text)
    ∧ ∀ x ∈ CqlCodeLensProvider.parseStatementsWithLines text, okStmtSpan x := by
  have h := pswGo_chained text none ⟨false, none⟩ [] 0 none
    (by intro x hx; simp at hx)
  simp only [lowOf] at h
  exact ⟨h, chainedFrom_mem h⟩

/-- C7 witness: the invariants instantiated on a one-statement document and
its emitted statement. -/
theorem c7_line_span_invariants_witness :
    chainedFrom 0 (CqlCodeLensProvider.parseStatementsWithLines (strL "SELECT 1;"))
    ∧ okStmtSpan ⟨strL "SELECT 1", 0, 0, 0⟩ :=
  ⟨(c7_line_span_invariants (strL "SELECT 1;")).1,
   (c7_line_span_invariants (strL "SELECT 1;")).2 ⟨strL "SELECT 1", 0, 0, 0⟩ (by decide)⟩

/-- C7 counterexample: two statements on one source line receive identical
line spans, so the spans overlap (both cover line 0) and the start lines are
not strictly increasing, contrary to the claim. -/
theorem c7_same_line_statements :
    (CqlCodeLensProvider.parseStatementsWithLines (strL "SELECT 1; SELECT 2;")).map
      (fun x => (x.startLine, x.endLine)) = [(0, 0), (0, 0)] := by decide

/-! ## Claim C9: bounded history eviction -/

theorem mem_map_fst_mapDelete {α : Type} :
    ∀ (m : List (List Char × α)) (k k' : List Char), k' ≠ k →
    k' ∈ m.map Prod.fst → k' ∈ (mapDelete m k).map Prod.fst := by
  intro m
  induction m with
  | nil => intro k k' _ hm; simp at hm
  | cons e rest ih =>
    intro k k' hne hm
    rw [mapDelete]
    rcases List.mem_map.mp hm with ⟨f, hf, hfe⟩
    rcases List.mem_cons.mp hf with he | hr
    · by_cases hek : e.1 = k
      · rw [he] at hfe
        exact absurd (hfe ▸ hek) hne
      · rw [if_neg hek]
        rw [he] at hfe
        exact List.mem_map.mpr ⟨e, List.mem_cons_self e _, hfe⟩
    · by_cases hek : e.1 = k
      · rw [if_pos hek]
        exact List.mem_map.mpr ⟨f, hr, hfe⟩
      · rw [if_neg hek]
        have hrec := ih k k' hne (List.mem_map.mpr ⟨f, hr, hfe⟩)
        simp only [List.map_cons]
        exact List.mem_cons_of_mem e.1 hrec

theorem filter_length_mapDelete {α : Type} (pre : List Char) :
    ∀ (m : List (List Char × α)) (k : List Char),
    k ∈ m.map Prod.fst → startsWithL k pre = true →
    ((mapDelete m k).filter (fun e => startsWithL e.1 pre)).length + 1 =
      (m.filter (fun e => startsWithL e.1 pre)).length := by
  intro m
  induction m with
  | nil => intro k hk _; simp at hk
  | cons e rest ih =>
    intro k hk hsw
    rw [mapDelete]
    by_cases he : e.1 = k
    · rw [if_pos he, List.filter_cons, if_pos (by rw [he]; simpa using hsw)]
      simp
    · rw [if_neg he, List.filter_cons, List.filter_cons]
      have hk' : k ∈ rest.map Prod.fst := by
        rcases List.mem_map.mp hk with ⟨f, hf, hfe⟩
        rcases List.mem_cons.mp hf with hfe' | hr
        · rw [hfe'] at hfe; exact absurd hfe he
        · exact List.mem_map.mpr ⟨f, hr, hfe⟩
      by_cases hp : startsWithL e.1 pre = true
      · rw [if_pos (by simpa using hp), if_pos (by simpa using hp)]
        simp only [List.length_cons]
        have := ih k hk' hsw
        omega
      · rw [if_neg (by simpa using hp), if_neg (by simpa using hp)]
        exact ih k hk' hsw

theorem foldl_mapDelete_count {α : Type} (pre : List Char) :
    ∀ (ks : List (List Char)) (m : List (List Char × α)),
    ks.Nodup → (∀ k ∈ ks, k ∈ m.map Prod.fst ∧ startsWithL k pre = true) →
    ((ks.foldl mapDelete m).filter (fun e => startsWithL e.1 pre)).length + ks.length =
      (m.filter (fun e => startsWithL e.1 pre)).length := by
  intro ks
  induction ks with
  | nil => intro m _ _; simp
  | cons k ks' ih =>
    intro m hnd hmem
    rw [List.foldl_cons]
    have hk := hmem k (List.mem_cons_self k ks')
    have hrec := ih (mapDelete m k) (List.Nodup.of_cons hnd) ?_
    · have h1 := filter_length_mapDelete pre m k hk.1 hk.2
      simp only [List.length_cons]
      omega
    · intro k' hk'
      have hne : k' ≠ k := by
        intro he
        rw [he] at hk'
        exact (List.nodup_cons.mp hnd).1 hk'
      exact ⟨mem_map_fst_mapDelete m k k' hne (hmem k' (List.mem_cons_of_mem k hk')).1,
        (hmem k' (List.mem_cons_of_mem k hk')).2⟩

theorem insertByTs_perm (x : List Char × Nat) :
    ∀ (l : List (List Char × Nat)), List.Perm (insertByTs x l) (x :: l) := by
  intro l
  induction l with
  | nil => simp [insertByTs]
  | cons y ys ih =>
    rw [insertByTs]
    by_cases h : y.2 ≤ x.2
    · rw [if_pos h]
      exact List.Perm.trans (List.Perm.cons y ih) (List.Perm.swap x y ys)
    · rw [if_neg h]

theorem sortByTs_perm_aux :
    ∀ (l acc : List (List Char × Nat)),
    List.Perm (l.foldl (fun a x => insertByTs x a) acc) (acc ++ l) := by
  intro l
  induction l with
  | nil => intro acc; simp
  | cons x t ih =>
    intro acc
    rw [List.foldl_cons]
    have h1 := ih (insertByTs x acc)
    have h2 : List.Perm (insertByTs x acc ++ t) ((x :: acc) ++ t) :=
      List.Perm.append_right t (insertByTs_perm x acc)
    have h3 : List.Perm ((x :: acc) ++ t) (acc ++ x :: t) := by
      rw [List.cons_append]
      exact List.perm_middle.symm
    exact h1.trans (h2.trans h3)

theorem sortByTs_perm (l : List (List Char × Nat)) :
    List.Perm (sortByTs l) l := by
  have := sortByTs_perm_aux l []
  simpa [sortByTs] using this

theorem mapSet_keys_nodup {α : Type} (m : List (List Char × α)) (k : List Char)
    (v : α) (h : (m.map Prod.fst).Nodup) :
    ((mapSet m k v).map Prod.fst).Nodup := by
  rw [mapSet]
  by_cases hany : m.any (fun e => decide (e.1 = k)) = true
  · rw [if_pos hany]
    have he : (m.map (fun e => if e.1 = k then (k, v) else e)).map Prod.fst =
        m.map Prod.fst := by
      rw [List.map_map]
      refine List.map_congr_left ?_
      intro e _
      by_cases hek : e.1 = k
      · simp [hek]
      · simp [hek]
    rw [he]
    exact h
  · rw [if_neg hany]
    have hk : k ∉ m.map Prod.fst := by
      intro hkm
      rcases List.mem_map.mp hkm with ⟨f, hf, hfe⟩
      have : m.any (fun e => decide (e.1 = k)) = true :=
        List.any_eq_true.mpr ⟨f, hf, by simp [hfe]⟩
      exact absurd this hany
    simp only [List.map_append, List.map_cons, List.map_nil]
    exact List.Nodup.append h (List.nodup_singleton k)
      (by intro x hx hy; simp at hy; rw [hy] at hx; exact hk hx)

theorem cleanup_count (uri : List Char) (st : TrackerState)
    (hnd : (st.executions.map Prod.fst).Nodup)
    (hbig : 100 < countFor uri st) :
    countFor uri (cleanup uri st) = countFor uri st - 20 := by
  rw [cleanup]
  have hlen : ((st.executions.filter (fun e => startsWithL e.1 (uri ++ [':']))).map
      (fun e => (e.1, e.2.timestamp))).length = countFor uri st := by
    rw [List.length_map]; rfl
  rw [if_neg (by rw [hlen]; omega)]
  simp only [countFor]
  have hfold : ((sortByTs ((st.executions.filter
      (fun e => startsWithL e.1 (uri ++ [':']))).map
        (fun e => (e.1, e.2.timestamp)))).take 20).foldl
      (fun m item => mapDelete m item.1) st.executions =
    (((sortByTs ((st.executions.filter
      (fun e => startsWithL e.1 (uri ++ [':']))).map
        (fun e => (e.1, e.2.timestamp)))).take 20).map Prod.fst).foldl
      mapDelete st.executions := by
    rw [List.foldl_map]
  rw [hfold]
  set fileKeys := (st.executions.filter
    (fun e => startsWithL e.1 (uri ++ [':']))).map (fun e => (e.1, e.2.timestamp))
    with hfk
  have hperm : List.Perm (sortByTs fileKeys) fileKeys := sortByTs_perm fileKeys
  have hkeyseq : fileKeys.map Prod.fst =
      (st.executions.filter (fun e => startsWithL e.1 (uri ++ [':']))).map Prod.fst := by
    rw [hfk, List.map_map]
    rfl
  have hfknd : (fileKeys.map Prod.fst).Nodup := by
    rw [hkeyseq]
    exact List.Nodup.sublist (List.Sublist.map Prod.fst (List.filter_sublist _)) hnd
  have hsortnd : ((sortByTs fileKeys).map Prod.fst).Nodup :=
    (List.Perm.nodup_iff (List.Perm.map Prod.fst hperm)).mpr hfknd
  have htknd : (((sortByTs fileKeys).take 20).map Prod.fst).Nodup := by
    rw [List.map_take]
    exact List.Nodup.sublist (List.take_sublist 20 _) hsortnd
  have hmem : ∀ k ∈ ((sortByTs fileKeys).take 20).map Prod.fst,
      k ∈ st.executions.map Prod.fst ∧ startsWithL k (uri ++ [':']) = true := by
    intro k hk
    rw [List.map_take] at hk
    have hk2 : k ∈ (sortByTs fileKeys).map Prod.fst :=
      List.mem_of_mem_take hk
    have hk3 : k ∈ fileKeys.map Prod.fst :=
      (List.Perm.mem_iff (List.Perm.map Prod.fst hperm)).mp hk2
    rw [hkeyseq] at hk3
    rcases List.mem_map.mp hk3 with ⟨f, hf, hfe⟩
    have hff := List.mem_filter.mp hf
    exact ⟨List.mem_map.mpr ⟨f, hff.1, hfe⟩, by rw [← hfe]; simpa using hff.2⟩
  have hcount := foldl_mapDelete_count (uri ++ [':'])
    (((sortByTs fileKeys).take 20).map Prod.fst) st.executions htknd hmem
  have hlen20 : (((sortByTs fileKeys).take 20).map Prod.fst).length = 20 := by
    rw [List.length_map, List.length_take]
    have hsl : (sortByTs fileKeys).length = fileKeys.length := hperm.length_eq
    omega
  rw [hlen20] at hcount
  simp only [countFor] at hbig ⊢
  omega

/-- C9 (confirmed): whenever an insertion makes the number of keys of a
document exceed 100, the following cleanup evicts exactly 20 entries — the
oldest by timestamp (first conjunct, for any tracker state with the Map
property of distinct keys); in particular, after recording 101 distinct
statement positions for one document the store holds exactly 81 entries for
it, and precisely the 81 most recently recorded positions survive (the 20
oldest are gone). -/
theorem c9_bounded_history :
    (∀ (st : TrackerState) (uri : List Char) (s e : Nat) (rec : ExecRecordT),
        (st.executions.map Prod.fst).Nodup →
        100 < countFor uri (insertOnly uri s e rec st) →
        countFor uri (recordExecution uri s e rec st) =
          countFor uri (insertOnly uri s e rec st) - 20)
    ∧ countFor (strL "u") c9Final = 81
    ∧ (∀ i, i < 101 →
        ((getLastExecution (strL "u") i i c9Final).isSome = decide (20 ≤ i))) := by
  refine ⟨?_, by decide, by decide⟩
  intro st uri s e rec hnd hbig
  exact cleanup_count uri (insertOnly uri s e rec st)
    (mapSet_keys_nodup st.executions (makeKey uri s e) rec hnd) hbig

/-- C9 witness: the general eviction law of the theorem applied at the 101st
insertion of the concrete scenario. -/
theorem c9_bounded_history_witness :
    countFor (strL "u") (recordExecution (strL "u") 100 100 ⟨1, 1, 100, true⟩ c9Pre) =
      countFor (strL "u") (insertOnly (strL "u") 100 100 ⟨1, 1, 100, true⟩ c9Pre) - 20 :=
  c9_bounded_history.1 c9Pre (strL "u") 100 100 ⟨1, 1, 100, true⟩
    (by decide) (by decide)

/-! ## Claim C10: clearFile and its frame -/

theorem startsWithL_append (p r : List Char) : startsWithL (p ++ r) p = true := by
  induction p with
  | nil =>
    cases r with
    | nil => rfl
    | cons c cs => rfl
  | cons a p' ih => simp [startsWithL, ih]

theorem makeKey_startsWith (uri : List Char) (s e : Nat) :
    startsWithL (makeKey uri s e) (uri ++ [':']) = true := by
  have he : makeKey uri s e = (uri ++ [':']) ++ (natChars s ++ '-' :: natChars e) := by
    simp [makeKey]
  rw [he]
  exact startsWithL_append _ _

theorem foldl_mapDelete_cons {α : Type} (e : List Char × α) :
    ∀ (ks : List (List Char)) (m : List (List Char × α)),
    (∀ k ∈ ks, k ≠ e.1) →
    ks.foldl mapDelete (e :: m) = e :: ks.foldl mapDelete m := by
  intro ks
  induction ks with
  | nil => intro m _; rfl
  | cons k ks' ih =>
    intro m h
    have hk : k ≠ e.1 := h k (List.mem_cons_self k ks')
    rw [List.foldl_cons, List.foldl_cons, mapDelete,
      if_neg (fun he' => hk he'.symm)]
    exact ih (mapDelete m k) (fun x hx => h x (List.mem_cons_of_mem k hx))


theorem mapGet_cons {α : Type} (e : List Char × α) (rest : List (List Char × α))
    (k : List Char) :
    mapGet (e :: rest) k = if e.1 = k then some e.2 else mapGet rest k := by
  rw [mapGet, List.find?_cons]
  by_cases he : e.1 = k
  · simp [he, mapGet]
  · simp [he, mapGet]

theorem foldl_mapDelete_filter {α : Type} (pre : List Char) :
    ∀ (m : List (List Char × α)),
    ((m.filter (fun e => startsWithL e.1 pre)).map Prod.fst).foldl mapDelete m =
      m.filter (fun e => !startsWithL e.1 pre) := by
  intro m
  induction m with
  | nil => rfl
  | cons e rest ih =>
    by_cases hp : startsWithL e.1 pre = true
    · rw [List.filter_cons, if_pos (by simpa using hp)]
      rw [List.map_cons, List.foldl_cons]
      have hdel : mapDelete (e :: rest) e.1 = rest := by
        rw [mapDelete, if_pos rfl]
      rw [hdel, ih]
      rw [List.filter_cons, if_neg (by simp [hp])]
    · have hp' : startsWithL e.1 pre = false := by
        cases hc : startsWithL e.1 pre
        · rfl
        · exact absurd hc hp
      rw [List.filter_cons, if_neg (by simp [hp'])]
      have hside : ∀ k ∈ (rest.filter
          (fun e => startsWithL e.1 pre)).map Prod.fst, k ≠ e.1 := by
        intro k hk he
        rcases List.mem_map.mp hk with ⟨f, hf, hfe⟩
        have hff := List.mem_filter.mp hf
        have hft : startsWithL f.1 pre = true := by simpa using hff.2
        rw [hfe, he, hp'] at hft
        cases hft
      rw [foldl_mapDelete_cons e _ rest hside, ih]
      rw [List.filter_cons, if_pos (by simp [hp'])]

theorem mapGet_eq_none_of_not_mem {α : Type} :
    ∀ (m : List (List Char × α)) (k : List Char),
    k ∉ m.map Prod.fst → mapGet m k = none := by
  intro m
  induction m with
  | nil => intro k _; rfl
  | cons e rest ih =>
    intro k hk
    have hne : e.1 ≠ k := fun he =>
      hk (List.mem_map.mpr ⟨e, List.mem_cons_self e rest, he⟩)
    rw [mapGet_cons, if_neg hne]
    exact ih k (fun hm => hk (by
      simp only [List.map_cons]
      exact List.mem_cons_of_mem _ hm))

theorem mapGet_filter_not {α : Type} (pre : List Char) :
    ∀ (m : List (List Char × α)) (k : List Char), startsWithL k pre = true →
    mapGet (m.filter (fun e => !startsWithL e.1 pre)) k = none := by
  intro m
  induction m with
  | nil => intro k _; rfl
  | cons e rest ih =>
    intro k hk
    by_cases hp : startsWithL e.1 pre = true
    · rw [List.filter_cons, if_neg (by simp [hp])]
      exact ih k hk
    · have hp' : startsWithL e.1 pre = false := by
        cases hc : startsWithL e.1 pre
        · rfl
        · exact absurd hc hp
      have hne : e.1 ≠ k := by
        intro he
        rw [he, hk] at hp'
        cases hp'
      rw [List.filter_cons, if_pos (by simp [hp']), mapGet_cons, if_neg hne]
      exact ih k hk

theorem mapGet_filter_same {α : Type} (pre : List Char) :
    ∀ (m : List (List Char × α)) (k : List Char), startsWithL k pre = false →
    mapGet (m.filter (fun e => !startsWithL e.1 pre)) k = mapGet m k := by
  intro m
  induction m with
  | nil => intro k _; rfl
  | cons e rest ih =>
    intro k hk
    by_cases he : e.1 = k
    · have hp : startsWithL e.1 pre = false := by rw [he]; exact hk
      rw [List.filter_cons, if_pos (by simp [hp]), mapGet_cons, mapGet_cons,
        if_pos he, if_pos he]
    · by_cases hp : startsWithL e.1 pre = true
      · rw [List.filter_cons, if_neg (by simp [hp]), ih k hk, mapGet_cons,
          if_neg he]
      · have hp' : startsWithL e.1 pre = false := by
          cases hc : startsWithL e.1 pre
          · rfl
          · exact absurd hc hp
        rw [List.filter_cons, if_pos (by simp [hp']), mapGet_cons, mapGet_cons,
          if_neg he, if_neg he]
        exact ih k hk

theorem mapGet_mapDelete_ne {α : Type} :
    ∀ (m : List (List Char × α)) (k k' : List Char), k' ≠ k →
    mapGet (mapDelete m k) k' = mapGet m k' := by
  intro m
  induction m with
  | nil => intro k k' _; rfl
  | cons e rest ih =>
    intro k k' hne
    rw [mapDelete]
    by_cases he : e.1 = k
    · rw [if_pos he, mapGet_cons, if_neg (by rw [he]; exact fun hh => hne hh.symm)]
    · rw [if_neg he, mapGet_cons, mapGet_cons]
      by_cases he' : e.1 = k'
      · rw [if_pos he', if_pos he']
      · rw [if_neg he', if_neg he']
        exact ih k k' hne

theorem mapGet_mapDelete_self {α : Type} :
    ∀ (m : List (List Char × α)) (k : List Char), (m.map Prod.fst).Nodup →
    mapGet (mapDelete m k) k = none := by
  intro m
  induction m with
  | nil => intro k _; rfl
  | cons e rest ih =>
    intro k hnd
    rw [mapDelete]
    by_cases he : e.1 = k
    · rw [if_pos he]
      refine mapGet_eq_none_of_not_mem rest k ?_
      have hnm := (List.nodup_cons.mp hnd).1
      rw [he] at hnm
      exact hnm
    · rw [if_neg he, mapGet_cons, if_neg he]
      exact ih k (List.Nodup.of_cons hnd)

/-- C10 (corrected): clearFile u removes every statement-level record whose
key begins with u followed by a colon and the file-level total of u, so
every subsequent lookup under u is absent (first two conjuncts); records of
another document identity are preserved exactly when its keys do NOT begin
with u followed by a colon, and file-level totals of every other identity
are preserved (last two conjuncts).  A document whose identity extends u
with a colon-separated suffix has keys beginning with u and a colon, so its
statement records are also removed, contrary to the claim — see the
counterexample. -/
theorem c10_clearFile_frame (st : TrackerState) (u : List Char) (s e : Nat)
    (hnd : (st.fileExecutions.map Prod.fst).Nodup) :
    getLastExecution u s e (clearFile u st) = none
    ∧ getFileExecutionTime u (clearFile u st) = none
    ∧ (∀ (u' : List Char) (s' e' : Nat),
        startsWithL (makeKey u' s' e') (u ++ [':']) = false →
        getLastExecution u' s' e' (clearFile u st) = getLastExecution u' s' e' st)
    ∧ (∀ u' : List Char, u' ≠ u →
        getFileExecutionTime u' (clearFile u st) = getFileExecutionTime u' st) := by
  have hexec : ((st.executions.filter
      (fun e => startsWithL e.1 (u ++ [':']))).map Prod.fst).foldl mapDelete
      st.executions = st.executions.filter (fun e => !startsWithL e.1 (u ++ [':'])) :=
    foldl_mapDelete_filter (u ++ [':']) st.executions
  refine ⟨?_, ?_, ?_, ?_⟩
  · show mapGet _ (makeKey u s e) = none
    simp only [clearFile]
    rw [hexec]
    exact mapGet_filter_not (u ++ [':']) st.executions (makeKey u s e)
      (makeKey_startsWith u s e)
  · show mapGet _ u = none
    simp only [clearFile]
    exact mapGet_mapDelete_self st.fileExecutions u hnd
  · intro u' s' e' hpre
    show mapGet _ (makeKey u' s' e') = mapGet _ (makeKey u' s' e')
    simp only [clearFile]
    rw [hexec]
    exact mapGet_filter_same (u ++ [':']) st.executions (makeKey u' s' e') hpre
  · intro u' hne
    show mapGet _ u' = mapGet _ u'
    simp only [clearFile]
    exact mapGet_mapDelete_ne st.fileExecutions u u' hne

/-- C10 witness: the theorem instantiated on the concrete scenario, with the
file-level frame applied to the untouched document b. -/
theorem c10_clearFile_frame_witness :
    getLastExecution (strL "a") 1 1 (clearFile (strL "a") c10State) = none
    ∧ getFileExecutionTime (strL "a") (clearFile (strL "a") c10State) = none
    ∧ getFileExecutionTime (strL "b") (clearFile (strL "a") c10State) =
        getFileExecutionTime (strL "b") c10State := by
  have h := c10_clearFile_frame c10State (strL "a") 1 1 (by decide)
  exact ⟨h.1, h.2.1, h.2.2.2 (strL "b") (by decide)⟩

/-- C10 counterexample: the record of the document a:b — an identity that
extends a with a colon-separated suffix — is present before clearFile a and
gone afterwards, because its key a:b:1-1 starts with the prefix a: that
clearFile matches; the claim requires it to be left unchanged. -/
theorem c10_prefix_collision :
    (getLastExecution (strL "a:b") 1 1 c10State).isSome = true
    ∧ getLastExecution (strL "a:b") 1 1 (clearFile (strL "a") c10State) = none := by
  decide

/-! ## Claims C3, C4, C5: the execution loop -/

theorem sumElapsedFrom_zero (exec : Nat → ExecOutcome) (i0 : Nat) :
    sumElapsedFrom exec i0 0 = 0 := rfl

theorem sumElapsedFrom_succ (exec : Nat → ExecOutcome) (i0 k : Nat) :
    sumElapsedFrom exec i0 (k + 1) =
      elapsedOf (exec i0) + sumElapsedFrom exec (i0 + 1) k := by
  rw [sumElapsedFrom, List.range_succ_eq_map]
  simp only [List.map_cons, List.map_map, List.sum_cons, Nat.add_zero]
  congr 1
  rw [sumElapsedFrom]
  congr 1
  refine List.map_congr_left ?_
  intro j _
  have he : i0 + Nat.succ j = i0 + 1 + j := by omega
  simp [Function.comp, he]

theorem okTrace_filter_clientExecute (ctx : RunCtx) (n : Nat) :
    ∀ (l : List (List Char)) (i0 : Nat),
    (okTrace ctx n l i0).filter isClientExecute = l.map Event.clientExecute := by
  intro l
  induction l with
  | nil => intro i0; rfl
  | cons stmt rest ih =>
    intro i0
    rw [okTrace]
    by_cases hc : i0 = n - 1 ∨ n = 1
    · rw [if_pos hc]
      simp [isClientExecute, ih (i0 + 1)]
    · rw [if_neg hc]
      simp [isClientExecute, ih (i0 + 1)]

theorem okTrace_filter_showError (ctx : RunCtx) (n : Nat) :
    ∀ (l : List (List Char)) (i0 : Nat),
    (okTrace ctx n l i0).filter isShowError = [] := by
  intro l
  induction l with
  | nil => intro i0; rfl
  | cons stmt rest ih =>
    intro i0
    rw [okTrace]
    by_cases hc : i0 = n - 1 ∨ n = 1
    · rw [if_pos hc]
      simp [isShowError, ih (i0 + 1)]
    · rw [if_neg hc]
      simp [isShowError, ih (i0 + 1)]

theorem okTrace_filter_showResults (ctx : RunCtx) (n : Nat) :
    ∀ (l : List (List Char)) (i0 : Nat), i0 + l.length = n → 2 ≤ n → l ≠ [] →
    (okTrace ctx n l i0).filter isShowResults =
      [Event.showResults (l.getD (l.length - 1) [])
        (elapsedOf (ctx.exec (n - 1))) (rowsOf (ctx.exec (n - 1)))] := by
  intro l
  induction l with
  | nil => intro i0 _ _ hne; exact absurd rfl hne
  | cons stmt rest ih =>
    intro i0 hlen hn _
    rw [okTrace]
    simp only [List.filter_cons, List.filter_append]
    cases hrest : rest with
    | nil =>
      subst hrest
      have hi0 : i0 = n - 1 := by
        simp only [List.length_cons, List.length_nil] at hlen
        omega
      rw [if_pos (Or.inl hi0)]
      simp [isShowResults, isClientExecute, okTrace, hi0]
    | cons r rest' =>
      have hcond : ¬(i0 = n - 1 ∨ n = 1) := by
        intro hc
        rcases hc with hc | hc
        · rw [hrest] at hlen
          simp only [List.length_cons] at hlen
          omega
        · omega
      rw [if_neg hcond]
      rw [← hrest]
      have hne' : rest ≠ [] := by rw [hrest]; simp
      have hrec := ih (i0 + 1) (by
        rw [← hlen]
        simp only [List.length_cons]
        omega) hn hne'
      simp only [isShowResults, isClientExecute]
      simp only [List.filter_nil, List.nil_append, List.filter_cons]
      rw [hrec]
      have hget : (stmt :: rest).getD ((stmt :: rest).length - 1) [] =
          rest.getD (rest.length - 1) [] := by
        rw [hrest]
        simp only [List.length_cons]
        rfl
      rw [hget]
      simp

theorem runStmts_ok_run (ctx : RunCtx) (n : Nat) :
    ∀ (l rest : List (List Char)) (i0 t : Nat),
    (∀ j, j < l.length → isOk (ctx.exec (i0 + j)) = true) →
    (∀ s ∈ l, dirTruthy (QueryCommands.findConnectionDirectiveInDocument
      ctx.docText s) = false) →
    runStmts ctx n (l ++ rest) i0 t =
      (okTrace ctx n l i0 ++
         (runStmts ctx n rest (i0 + l.length)
           (t + sumElapsedFrom ctx.exec i0 l.length)).1,
       (runStmts ctx n rest (i0 + l.length)
         (t + sumElapsedFrom ctx.exec i0 l.length)).2) := by
  intro l
  induction l with
  | nil =>
    intro rest i0 t _ _
    simp [okTrace, sumElapsedFrom_zero]
  | cons stmt l' ih =>
    intro rest i0 t hok hdir
    have hd := hdir stmt (List.mem_cons_self stmt l')
    rw [List.cons_append, runStmts]
    rw [if_neg (by
      intro hcon
      rw [hd] at hcon
      cases hcon.1)]
    have hok0 := hok 0 (by simp)
    rw [Nat.add_zero] at hok0
    cases hE : ctx.exec i0 with
    | err msg =>
      rw [hE] at hok0
      simp [isOk] at hok0
    | ok ms rc =>
      have hrec := ih rest (i0 + 1) (t + ms)
        (by
          intro j hj
          have := hok (j + 1) (by simpa using Nat.succ_lt_succ hj)
          have harith : i0 + (j + 1) = i0 + 1 + j := by omega
          rw [harith] at this
          exact this)
        (fun s hs => hdir s (List.mem_cons_of_mem stmt hs))
      simp only [hrec]
      rw [okTrace]
      have hms : elapsedOf (ctx.exec i0) = ms := by rw [hE]; rfl
      have hrc : rowsOf (ctx.exec i0) = rc := by rw [hE]; rfl
      have hlen : i0 + (stmt :: l').length = i0 + 1 + l'.length := by
        simp only [List.length_cons]
        omega
      have hsum : t + sumElapsedFrom ctx.exec i0 (stmt :: l').length =
          t + ms + sumElapsedFrom ctx.exec (i0 + 1) l'.length := by
        simp only [List.length_cons]
        rw [sumElapsedFrom_succ, hms]
        omega
      rw [hms, hrc, hlen, hsum]
      simp

theorem runStmts_no_records (ctx : RunCtx) (n : Nat) :
    ∀ (l : List (List Char)) (i0 t : Nat),
    ((runStmts ctx n l i0 t).1).filter isRecordExecution = [] := by
  intro l
  induction l with
  | nil => intro i0 t; rfl
  | cons stmt l' ih =>
    intro i0 t
    rw [runStmts]
    by_cases hcan : dirTruthy (QueryCommands.findConnectionDirectiveInDocument
        ctx.docText stmt) = true ∧ ctx.shouldProceed
        ((QueryCommands.findConnectionDirectiveInDocument ctx.docText stmt).getD []) = false
    · rw [if_pos hcan]
      rfl
    · rw [if_neg hcan]
      cases hE : ctx.exec i0 with
      | ok ms rc =>
        have hrec := ih (i0 + 1) (t + ms)
        by_cases hc : i0 = n - 1 ∨ n = 1
        · simp [hc, isRecordExecution, hrec]
        · simp [hc, isRecordExecution, hrec]
      | err msg =>
        by_cases hc : 1 < n
        · simp [hc, isRecordExecution]
        · simp [hc, isRecordExecution]

/-- C3 (confirmed): when the driver raises on statement i of a run with no
connection directives, the run trace is exactly the successful trace of the
first i statements followed by the abort block of statement i (so results
already published are untouched and nothing follows the abort block except
the file-total record), the driver is invoked exactly i + 1 times — never
for a statement after i — and exactly one error is published. -/
theorem c3_abort_on_failure (ctx : RunCtx) (text : List Char) (i : Nat) (m : List Char)
    (hi : i < (QueryCommands.parseStatements text).length)
    (hfail : ctx.exec i = ExecOutcome.err m)
    (hok : ∀ j, j < i → isOk (ctx.exec j) = true)
    (hdir : ∀ s ∈ QueryCommands.parseStatements text,
      dirTruthy (QueryCommands.findConnectionDirectiveInDocument ctx.docText s) = false) :
    executeQueryModel ctx text =
      okTrace ctx (QueryCommands.parseStatements text).length
          ((QueryCommands.parseStatements text).take i) 0
        ++ [Event.showExecuting ((QueryCommands.parseStatements text).getD i []),
            Event.clientExecute ((QueryCommands.parseStatements text).getD i []),
            Event.showError ((QueryCommands.parseStatements text).getD i []) m
              (QueryCommands.getSuggestionForError m),
            Event.errorNotification m]
        ++ (if 1 < (QueryCommands.parseStatements text).length then
              [Event.stoppedWarning (i + 1) (QueryCommands.parseStatements text).length]
            else [])
        ++ (if 0 < sumElapsedFrom ctx.exec 0 i then
              [Event.recordFileExecution ctx.uri (sumElapsedFrom ctx.exec 0 i)]
            else [])
    ∧ ((executeQueryModel ctx text).filter isClientExecute).length = i + 1
    ∧ ((executeQueryModel ctx text).filter isShowError).length = 1 := by
  set stmts := QueryCommands.parseStatements text with hst
  have hne : stmts ≠ [] := by
    intro he
    rw [he] at hi
    simp at hi
  have hlen_take : (stmts.take i).length = i := by
    rw [List.length_take]
    omega
  have hmemi : stmts.getD i [] ∈ stmts := by
    rw [List.getD_eq_getElem stmts [] hi]
    exact List.getElem_mem hi
  have hdrop : stmts.drop i = stmts.getD i [] :: stmts.drop (i + 1) := by
    rw [List.drop_eq_getElem_cons hi]
    rw [List.getD_eq_getElem stmts [] hi]
  have hok' : ∀ j, j < (stmts.take i).length → isOk (ctx.exec (0 + j)) = true := by
    intro j hj
    rw [hlen_take] at hj
    rw [Nat.zero_add]
    exact hok j hj
  have hdir' : ∀ s ∈ stmts.take i,
      dirTruthy (QueryCommands.findConnectionDirectiveInDocument ctx.docText s) = false :=
    fun s hs => hdir s (List.mem_of_mem_take hs)
  have hpref := runStmts_ok_run ctx stmts.length (stmts.take i) (stmts.drop i)
    0 0 hok' hdir'
  rw [List.take_append_drop, hlen_take, Nat.zero_add, Nat.zero_add] at hpref
  have hdone : runStmts ctx stmts.length (stmts.drop i) i
      (sumElapsedFrom ctx.exec 0 i) =
      (Event.showExecuting (stmts.getD i []) :: Event.clientExecute (stmts.getD i []) ::
        Event.showError (stmts.getD i []) m (QueryCommands.getSuggestionForError m) ::
        Event.errorNotification m ::
        (if 1 < stmts.length then [Event.stoppedWarning (i + 1) stmts.length] else []),
       sumElapsedFrom ctx.exec 0 i) := by
    rw [hdrop, runStmts]
    rw [if_neg (by
      intro hcon
      rw [hdir (stmts.getD i []) hmemi] at hcon
      cases hcon.1)]
    simp only [hfail]
  have hrun : runStmts ctx stmts.length stmts 0 0 =
      (okTrace ctx stmts.length (stmts.take i) 0 ++
        (Event.showExecuting (stmts.getD i []) :: Event.clientExecute (stmts.getD i []) ::
          Event.showError (stmts.getD i []) m (QueryCommands.getSuggestionForError m) ::
          Event.errorNotification m ::
          (if 1 < stmts.length then [Event.stoppedWarning (i + 1) stmts.length] else [])),
       sumElapsedFrom ctx.exec 0 i) := by
    rw [hpref, hdone]
  have hEq : executeQueryModel ctx text =
      okTrace ctx stmts.length (stmts.take i) 0
        ++ [Event.showExecuting (stmts.getD i []), Event.clientExecute (stmts.getD i []),
            Event.showError (stmts.getD i []) m (QueryCommands.getSuggestionForError m),
            Event.errorNotification m]
        ++ (if 1 < stmts.length then [Event.stoppedWarning (i + 1) stmts.length] else [])
        ++ (if 0 < sumElapsedFrom ctx.exec 0 i then
              [Event.recordFileExecution ctx.uri (sumElapsedFrom ctx.exec 0 i)]
            else []) := by
    rw [executeQueryModel, ← hst]
    rw [if_neg hne]
    rw [hrun]
    simp [List.append_assoc]
  refine ⟨hEq, ?_, ?_⟩
  · rw [hEq]
    by_cases h1 : 1 < stmts.length <;>
      by_cases h2 : 0 < sumElapsedFrom ctx.exec 0 i <;>
        simp [h1, h2, isClientExecute, okTrace_filter_clientExecute,
          List.filter_append, Nat.min_eq_left (Nat.le_of_lt hi)]
  · rw [hEq]
    by_cases h1 : 1 < stmts.length <;>
      by_cases h2 : 0 < sumElapsedFrom ctx.exec 0 i <;>
        simp [h1, h2, isShowError, okTrace_filter_showError, List.filter_append]

/-- C3 witness: in the three-statement run failing at the second statement,
the driver runs exactly twice and exactly one error is published. -/
theorem c3_abort_on_failure_witness :
    ((executeQueryModel c3Ctx (strL "SELECT 1;\nSELECT bad;\nSELECT 3;")).filter
        isClientExecute).length = 2
    ∧ ((executeQueryModel c3Ctx (strL "SELECT 1;\nSELECT bad;\nSELECT 3;")).filter
        isShowError).length = 1 := by
  have h := c3_abort_on_failure c3Ctx (strL "SELECT 1;\nSELECT bad;\nSELECT 3;") 1
    (strL "syntax error near bad") (by decide) (by decide) (by decide) (by decide)
  exact ⟨h.2.1, h.2.2⟩

/-- C5 (confirmed): in a run of two or more statements that all succeed and
carry no directives, the tabular result is published exactly once — it is
the final statement's result — and the loop's accumulated total is the sum
of every statement's elapsed time, displayed or not. -/
theorem c5_last_result_all_timed (ctx : RunCtx) (text : List Char)
    (h2 : 2 ≤ (QueryCommands.parseStatements text).length)
    (hok : ∀ j, j < (QueryCommands.parseStatements text).length →
      isOk (ctx.exec j) = true)
    (hdir : ∀ s ∈ QueryCommands.parseStatements text,
      dirTruthy (QueryCommands.findConnectionDirectiveInDocument ctx.docText s) = false) :
    (executeQueryModel ctx text).filter isShowResults =
      [Event.showResults
        ((QueryCommands.parseStatements text).getD
          ((QueryCommands.parseStatements text).length - 1) [])
        (elapsedOf (ctx.exec ((QueryCommands.parseStatements text).length - 1)))
        (rowsOf (ctx.exec ((QueryCommands.parseStatements text).length - 1)))]
    ∧ (runStmts ctx (QueryCommands.parseStatements text).length
        (QueryCommands.parseStatements text) 0 0).2 =
      sumElapsedFrom ctx.exec 0 (QueryCommands.parseStatements text).length := by
  set stmts := QueryCommands.parseStatements text with hst
  have hne : stmts ≠ [] := by
    intro he
    rw [he] at h2
    simp at h2
  have hok' : ∀ j, j < stmts.length → isOk (ctx.exec (0 + j)) = true := by
    intro j hj
    rw [Nat.zero_add]
    exact hok j hj
  have hpref := runStmts_ok_run ctx stmts.length stmts [] 0 0 hok' hdir
  rw [List.append_nil] at hpref
  have hnil : runStmts ctx stmts.length [] (0 + stmts.length)
      (0 + sumElapsedFrom ctx.exec 0 stmts.length) =
      ([], 0 + sumElapsedFrom ctx.exec 0 stmts.length) := rfl
  rw [hnil] at hpref
  simp only [Nat.zero_add, List.append_nil] at hpref
  constructor
  · rw [executeQueryModel, ← hst, if_neg hne]
    simp only [hpref]
    rw [List.filter_append]
    rw [okTrace_filter_showResults ctx stmts.length stmts 0 (by omega) h2 hne]
    by_cases hc : 0 < sumElapsedFrom ctx.exec 0 stmts.length <;>
      simp [hc, isShowResults]
  · rw [hpref]

/-- C5 witness: in the three-statement all-success run, only the final
statement's result is displayed and the loop total is the sum 3 + 4 + 5. -/
theorem c5_last_result_all_timed_witness :
    (executeQueryModel c5Ctx (strL "SELECT 1;\nSELECT 2;\nSELECT 3;")).filter
        isShowResults = [Event.showResults (strL "SELECT 3") 5 3]
    ∧ (runStmts c5Ctx 3 (QueryCommands.parseStatements
        (strL "SELECT 1;\nSELECT 2;\nSELECT 3;")) 0 0).2 = 12 := by
  have h := c5_last_result_all_timed c5Ctx (strL "SELECT 1;\nSELECT 2;\nSELECT 3;")
    (by decide) (by decide) (by decide)
  constructor
  · rw [h.1]
    decide
  · have h2 := h.2
    have he : (QueryCommands.parseStatements
        (strL "SELECT 1;\nSELECT 2;\nSELECT 3;")).length = 3 := by decide
    rw [he] at h2
    rw [h2]
    decide

/-- C4 (corrected): the multi-statement executeQuery run NEVER creates a
statement-level history record — its trace contains no recordExecution
event at all, for any collaborators and any input text (first conjunct);
per-statement ExecutionRecords are created only by the statement-at-line
execution path, which stores exactly one record keyed by the document
identity and the statement's line range, created immediately after the
driver call returns, with the measured elapsed time, the row count and
success on success, and zeros and failure on error (second conjunct). -/
theorem c4_history_records :
    (∀ (ctx : RunCtx) (text : List Char),
      (executeQueryModel ctx text).filter isRecordExecution = [])
    ∧ (∀ (uri : List Char) (startLine endLine : Nat) (docLines : List (List Char))
        (proceed : List Char → Bool) (outcome : ExecOutcome) (now : Nat),
        stmtTextOf docLines startLine endLine ≠ [] →
        dirTruthy (QueryCommands.findConnectionDirectiveInDocument (joinNl docLines)
          (stmtTextOf docLines startLine endLine)) = false →
        (executeStatementAtLineModel uri startLine endLine docLines proceed
            outcome now).filter isRecordExecution =
          [Event.recordExecution uri startLine endLine (recOf outcome now)]
        ∧ (executeStatementAtLineModel uri startLine endLine docLines proceed
            outcome now).take 3 =
          [Event.showExecuting (stmtTextOf docLines startLine endLine),
           Event.clientExecute (stmtTextOf docLines startLine endLine),
           Event.recordExecution uri startLine endLine (recOf outcome now)]) := by
  constructor
  · intro ctx text
    rw [executeQueryModel]
    by_cases hne : QueryCommands.parseStatements text = []
    · rw [if_pos hne]
      rfl
    · rw [if_neg hne]
      cases hrs : runStmts ctx (QueryCommands.parseStatements text).length
        (QueryCommands.parseStatements text) 0 0 with
      | mk evs total =>
        have hnr := runStmts_no_records ctx (QueryCommands.parseStatements text).length
          (QueryCommands.parseStatements text) 0 0
        rw [hrs] at hnr
        rw [List.filter_append, hnr]
        by_cases hc : 0 < total <;> simp [hc, isRecordExecution]
  · intro uri startLine endLine docLines proceed outcome now hne hdir
    simp only [executeStatementAtLineModel]
    rw [if_neg hne]
    rw [if_neg (by
      intro hcon
      rw [hdir] at hcon
      cases hcon.1)]
    cases outcome with
    | ok ms rc =>
      exact ⟨by simp [isRecordExecution, recOf], by simp [recOf]⟩
    | err msg =>
      exact ⟨by simp [isRecordExecution, recOf], by simp [recOf]⟩

/-- C4 counterexample: in an executeQuery run one statement finishes
executing (the driver is invoked once and succeeds), yet no ExecutionRecord
is created in the history store — the trace has no recordExecution event,
only the file-level total. -/
theorem c4_run_records_nothing :
    ((executeQueryModel c4Ctx (strL "SELECT 1;")).filter isClientExecute).length = 1
    ∧ (executeQueryModel c4Ctx (strL "SELECT 1;")).filter isRecordExecution = []
    ∧ (executeQueryModel c4Ctx (strL "SELECT 1;")).filter
        (fun ev => match ev with
          | Event.recordFileExecution _ _ => true
          | _ => false) =
      [Event.recordFileExecution (strL "file:///a.cql") 5] := by
  decide

/-- C4 witness: both parts of the theorem at concrete inputs — the run path
records nothing, the statement-at-line path records the measured outcome. -/
theorem c4_history_records_witness :
    (executeQueryModel c4Ctx (strL "SELECT 1;")).filter isRecordExecution = []
    ∧ (executeStatementAtLineModel (strL "file:///a.cql") 0 0 [strL "SELECT 1;"]
        (fun _ => true) (ExecOutcome.ok 7 3) 42).filter isRecordExecution =
      [Event.recordExecution (strL "file:///a.cql") 0 0 (recOf (ExecOutcome.ok 7 3) 42)] := by
  refine ⟨c4_history_records.1 c4Ctx (strL "SELECT 1;"), ?_⟩
  exact (c4_history_records.2 (strL "file:///a.cql") 0 0 [strL "SELECT 1;"]
    (fun _ => true) (ExecOutcome.ok 7 3) 42 (by decide) (by decide)).1
